import Mathlib

/-!
# mandel-simd: the scalar escape-time kernel and its driver

A shallow embedding of `src/mandel.c`.

Conventions of the embedding.
* C `int` is a 32-bit two's complement integer.  The values are `Int`; the
  products and sums of the index arithmetic and of the buffer size are reduced
  to the 32-bit range by `wrapInt`, which is what the x86-64 instructions do
  (the C standard leaves signed overflow undefined).
* C `float` is IEEE-754 binary32 with round-to-nearest-even, every operation
  rounded on its own, with no fused multiply-add and no excess precision
  (`F32`).  The two zeros are one value: the only divisors are `int`s
  converted to `float`, and the program never looks at the sign of a zero.
* `unsigned char *image` is a map from byte offsets to byte values, paired
  with the log of the offsets stored to; a store of an `int` into an
  `unsigned char` keeps the value modulo 256.
* `for (int i = 0; i < n; i++)` is a left fold over `0, 1, ..., n - 1`.
-/

set_option exponentiation.threshold 2048
set_option maxRecDepth 4000

namespace Mandel

/-! ## 32-bit integers -/

/-- The 32-bit two's complement value of an integer: the representative of
`v` modulo `2^32` in the range from `-2^31` to `2^31 - 1`. -/
def wrapInt (v : Int) : Int := (v + 2147483648) % 4294967296 - 2147483648

/-- The product of two `int`s. -/
def imul (a b : Int) : Int := wrapInt (a * b)

/-- The sum of two `int`s. -/
def iadd (a b : Int) : Int := wrapInt (a + b)

/-! ## binary32 -/

/-- A binary32 value.  Every finite binary32 number is an integer multiple of
the least subnormal `2^(-149)`, and `fin n` is the number `n * 2^(-149)`; so
`1.0f` is `fin (2^149)`. -/
inductive F32 where
  | fin (n : Int)
  | inf (negative : Bool)
  | nan
  deriving DecidableEq, Repr

namespace F32

/-- The position of the leading bit of `n` by repeated halving, at most `fuel`
times. -/
def ilog2Aux : ℕ → ℕ → ℕ
  | 0, _ => 0
  | fuel + 1, n => if n < 2 then 0 else ilog2Aux fuel (n / 2) + 1

/-- The position of the leading bit of `m < 2^(2^k)` by bisection of the
exponent. -/
def ilog2Fast : ℕ → ℕ → ℕ
  | 0, _ => 0
  | k + 1, m =>
    if 2 ^ 2 ^ k ≤ m then 2 ^ k + ilog2Fast k (m / 2 ^ 2 ^ k) else ilog2Fast k m

/-- The position of the leading bit of `n`: `2^(ilog2 n) <= n < 2^(ilog2 n + 1)`
for `n > 0`, and `ilog2 0 = 0`. -/
def ilog2 (n : ℕ) : ℕ := if n < 2 ^ 2 ^ 10 then ilog2Fast 10 n else ilog2Aux n n

/-- The magnitude of the binary32 number nearest to `a / D`, ties going to the
even significand, in units of `2^(-149)`: the spacing of the binary32 numbers
around `a / D` is `2^j` units, with `j = 0` below `2^24` units. -/
def roundMag (a D : ℕ) : ℕ :=
  let j := ilog2 (a / D) - 23
  let den := D * 2 ^ j
  let k := a / den
  let r := a % den
  (if den < 2 * r ∨ (2 * r = den ∧ k % 2 = 1) then k + 1 else k) * 2 ^ j

/-- The rational `N / D`, in units of `2^(-149)`, rounded to binary32; a
magnitude of `2^128` or more overflows to an infinity. -/
def round (N : Int) (D : ℕ) : F32 :=
  if 2 ^ 277 ≤ roundMag N.natAbs D then inf (decide (N < 0))
  else fin (if N < 0 then -(roundMag N.natAbs D : Int) else (roundMag N.natAbs D : Int))

/-- Negation. -/
def neg : F32 → F32
  | fin n => fin (-n)
  | inf s => inf (!s)
  | nan => nan

/-- Addition. -/
def add : F32 → F32 → F32
  | fin a, fin b => round (a + b) 1
  | fin _, inf s => inf s
  | inf s, fin _ => inf s
  | inf s, inf t => if s = t then inf s else nan
  | _, _ => nan

/-- Subtraction. -/
def sub (a b : F32) : F32 := add a (neg b)

/-- Multiplication. -/
def mul : F32 → F32 → F32
  | fin a, fin b => round (a * b) (2 ^ 149)
  | fin a, inf s => if a = 0 then nan else inf (xor (decide (a < 0)) s)
  | inf s, fin b => if b = 0 then nan else inf (xor s (decide (b < 0)))
  | inf s, inf t => inf (xor s t)
  | _, _ => nan

/-- Division; a zero divisor is the positive zero. -/
def div : F32 → F32 → F32
  | fin a, fin b =>
    if b = 0 then (if a = 0 then nan else inf (decide (a < 0)))
    else round (if b < 0 then -(a * 2 ^ 149) else a * 2 ^ 149) b.natAbs
  | fin _, inf _ => fin 0
  | inf s, fin b => inf (xor s (decide (b < 0)))
  | _, _ => nan

/-- The comparison `a >= b`; it is false when an operand is a NaN. -/
def ge : F32 → F32 → Bool
  | fin a, fin b => decide (b ≤ a)
  | fin _, inf s => s
  | inf s, fin _ => !s
  | inf s, inf t => !s || t
  | _, _ => false

/-- The conversion of an `int` to `float`. -/
def ofInt (i : Int) : F32 := round (i * 2 ^ 149) 1

/-- The conversion of a `float` to `int`: truncation towards zero.  A NaN, an
infinity or a value outside the range of `int` gives `INT_MIN`, as the x86-64
conversion instruction does. -/
def toInt : F32 → Int
  | fin n =>
    if -2147483648 ≤ Int.tdiv n (2 ^ 149) ∧ Int.tdiv n (2 ^ 149) < 2147483648 then
      Int.tdiv n (2 ^ 149)
    else -2147483648
  | _ => -2147483648

/-- The binary32 number `m * 2^e`, for `e >= -149` and `m` of at most 24
bits. -/
def dyadic (m : Int) (e : Int) : F32 := fin (m * 2 ^ (e + 149).toNat)

/-- The exact value of a finite binary32 number as a rational. -/
def toRat : F32 → ℚ
  | fin n => (n : ℚ) / 2 ^ 149
  | _ => 0

instance : Neg F32 := ⟨neg⟩

end F32

open F32

/-! ## Data model -/

/-- Modelled from the spec: `struct spec` is declared in `mandel.h`, which is
not part of the sources at hand.  The fields are the ones `main` initialises
(`src/mandel.c:66-73`): four `int`s and two `float[2]` arrays, whose entries
`[0]` and `[1]` are the components `.1` and `.2` of a pair. -/
structure spec where
  width : Int
  height : Int
  depth : Int
  xlim : F32 × F32
  ylim : F32 × F32
  iterations : Int

/-- The memory behind `unsigned char *image`: `bytes i` is the value of
`image[i]`, and `written` lists the offsets stored to so far, the most recent
first. -/
structure Image where
  bytes : Int → Int
  written : List Int

/-- The assignment `image[i] = v` for an `int` value `v`: the conversion to
`unsigned char` reduces `v` modulo 256. -/
def Image.store (im : Image) (i v : Int) : Image :=
  { bytes := Function.update im.bytes i (v % 256), written := i :: im.written }

/-- The loop `for (int i = 0; i < n; i++) body(i)` acting on a state. -/
def forLoop {σ : Type} (n : Int) (body : Int → σ → σ) (st : σ) : σ :=
  (List.range n.toNat).foldl (fun acc (i : ℕ) => body (i : Int) acc) st

/-! ## `mandel_basic` (`src/mandel.c:13-48`) -/

/-- Line 16: `float xscale = (s->xlim[1] - s->xlim[0]) / s->width;` -/
def xscale (s : spec) : F32 := div (sub s.xlim.2 s.xlim.1) (ofInt s.width)

/-- Line 17: `float yscale = (s->ylim[1] - s->ylim[0]) / s->height;` -/
def yscale (s : spec) : F32 := div (sub s.ylim.2 s.ylim.1) (ofInt s.height)

/-- Line 21: `float cr = x * xscale + s->xlim[0];` -/
def pixel_cr (s : spec) (x : Int) : F32 := add (mul (ofInt x) (xscale s)) s.xlim.1

/-- Line 22: `float ci = y * yscale + s->ylim[0];` -/
def pixel_ci (s : spec) (y : Int) : F32 := add (mul (ofInt y) (yscale s)) s.ylim.1

/-- Lines 28-31: one update of `(zr, zi)` in the body of the `while` loop:
`zr1 = zr * zr - zi * zi + cr` and `zi1 = zr * zi + zr * zi + ci`. -/
def mandelStep (cr ci : F32) (z : F32 × F32) : F32 × F32 :=
  (add (sub (mul z.1 z.1) (mul z.2 z.2)) cr, add (add (mul z.1 z.2) (mul z.1 z.2)) ci)

/-- Line 33: the escape test `zr * zr + zi * zi >= 4.0f`. -/
def escaped (z : F32 × F32) : Bool := ge (add (mul z.1 z.1) (mul z.2 z.2)) (dyadic 4 0)

/-- The locals `zr`, `zi` and `mk` when the `while` loop is left. -/
structure LoopResult where
  locals ::
  zr : F32
  zi : F32
  mk : F32

/-- Lines 27-35: `while (++k < s->iterations) { ...; mk += 1.0f; if (...) break; }`
entered with the given values of `k`, `zr`, `zi` and `mk`. -/
def whileLoop (iterations : Int) (cr ci : F32) (k : Int) (zr zi mk : F32) : LoopResult :=
  if k + 1 < iterations then
    let z1 := mandelStep cr ci (zr, zi)
    if escaped z1 then
      { zr := z1.1, zi := z1.2, mk := add mk (dyadic 1 0) }
    else
      whileLoop iterations cr ci (k + 1) z1.1 z1.2 (add mk (dyadic 1 0))
  else
    { zr := zr, zi := zi, mk := mk }
termination_by (iterations - k).toNat
decreasing_by omega

/-- Lines 23-35: the inner loop run from `zr = cr`, `zi = ci`, `k = 0`,
`mk = 0.0f`. -/
def innerLoop (iterations : Int) (cr ci : F32) : LoopResult :=
  whileLoop iterations cr ci 0 cr ci (fin 0)

/-- Lines 23-36: the escape count `int pixel = mk` of the plane point
`(cr, ci)`. -/
def escapeCount (iterations : Int) (cr ci : F32) : Int :=
  toInt (innerLoop iterations cr ci).mk

/-- Lines 21-36: the value of `pixel` for the pixel `(x, y)`. -/
def pixel (s : spec) (x y : Int) : Int :=
  escapeCount s.iterations (pixel_cr s x) (pixel_ci s y)

/-- Lines 21-45: the body of the loop over `x`, for row `y` and column `x`.
The indices are `y * s->width * 2 + x * 2 + 0`, the same `+ 1`, and
`y * s->width + x`, computed in `int`. -/
def pixelBody (s : spec) (y x : Int) (image : Image) : Image :=
  if s.depth > 256 then
    (image.store (iadd (iadd (imul (imul y s.width) 2) (imul x 2)) 0)
      (pixel s x y >>> (8 : ℕ))).store
      (iadd (iadd (imul (imul y s.width) 2) (imul x 2)) 1) (pixel s x y)
  else
    image.store (iadd (imul y s.width) x) (pixel s x y)

/-- Lines 20-46: the body of the loop over `y`, for row `y`. -/
def rowBody (s : spec) (y : Int) (image : Image) : Image :=
  forLoop s.width (pixelBody s y) image

/-- Lines 13-48: `mandel_basic(image, s)`, the rows taken in increasing
order.  The `#pragma omp parallel for` of line 18 lets the rows be taken in
another order; `processRows` below is the same loop over any list of rows. -/
def mandel_basic (image : Image) (s : spec) : Image :=
  forLoop s.height (rowBody s) image

/-! ## `main` (`src/mandel.c:62-183`) -/

/-- The functions `main` can hand the image to. -/
inductive Backend where
  | basic
  | altivec
  | avx
  | sse2
  | neon
  deriving DecidableEq, Repr

/-- The constant `bit_AVX` of the compiler's `<cpuid.h>`: bit 28 of `ecx`. -/
def bit_AVX : Nat := 0x10000000

/-- Lines 53-59: `is_avx_supported`, as a function of the `ecx` word that
`__get_cpuid(1, ...)` reports. -/
def is_avx_supported (ecx : Nat) : Int := if ecx &&& bit_AVX ≠ 0 then 1 else 0

/-- Lines 143-147: `spec.depth = spec.iterations;` followed by the range test on
`iterations`; `Except.error 1` is `exit(1)` after the message
"iterations must be > 0 and < 65536". -/
def main_validate (s : spec) : Except Int spec :=
  let s1 : spec := { s with depth := s.iterations }
  if s1.iterations < 0 || s1.iterations ≥ 65536 then
    Except.error 1
  else
    Except.ok s1

/-- Lines 151-153: `size_t nbytes = spec.width * spec.height;
if (spec.depth > 256) nbytes *= 2;`: the product is an `int`, converted to a
64-bit `size_t`, and the doubling is done in `size_t`. -/
def main_nbytes (s : spec) : Int :=
  let nbytes : Int := (imul s.width s.height) % 2 ^ 64
  if s.depth > 256 then (nbytes * 2) % 2 ^ 64 else nbytes

/-- Lines 157-162 and 174-175: the backend `main` calls on x86_64, from the
flags `use_avx`, `use_sse2` and the `ecx` word of the processor. -/
def main_backend_x86_64 (use_avx use_sse2 : Int) (ecx : Nat) : Backend :=
  if (0 : Int) ≠ 0 ∧ use_avx ≠ 0 ∧ is_avx_supported ecx ≠ 0 then
    Backend.avx
  else if (0 : Int) ≠ 0 ∧ use_sse2 ≠ 0 then
    Backend.sse2
  else
    Backend.basic

/-- Lines 143-175 on x86_64, after the options are parsed into `s`, `use_avx`
and `use_sse2`: the exit status of a rejected run, or the backend called, the
spec handed to it and the size of the buffer allocated for it. -/
def main_x86_64 (s : spec) (use_avx use_sse2 : Int) (ecx : Nat) :
    Except Int (Backend × spec × Int) :=
  match main_validate s with
  | Except.error status => Except.error status
  | Except.ok s1 => Except.ok (main_backend_x86_64 use_avx use_sse2 ecx, s1, main_nbytes s1)

/-! ## Definitions used to state and prove the properties -/

/-- Lines 66-73: the initial value of `spec` in `main`. -/
def initialSpec : spec :=
  { width := 1440, height := 1080, depth := 256, xlim := (dyadic (-5) (-1), dyadic 3 (-1)),
    ylim := (dyadic (-3) (-1), dyadic 3 (-1)), iterations := 256 }

/-- The spec `main` hands to the backend when run with the options
`-w w -h h -k k` (lines 96, 99, 107 and 143): the plane bounds are the initial
ones, `xlim = [-2.5, 1.5]` and `ylim = [-1.5, 1.5]`, and `depth = iterations`. -/
def canonical (w h k : Int) : spec :=
  { initialSpec with width := w, height := h, iterations := k, depth := k }

/-- A magnitude `v`, in units of `2^(-149)`, that has at most 24 significant
bits: it is a multiple of the spacing `2^(ilog2 v - 23)` of its binade. -/
def F32.isRep (v : ℕ) : Prop := v % 2 ^ (ilog2 v - 23) = 0

instance (v : ℕ) : Decidable (F32.isRep v) := by
  unfold F32.isRep
  infer_instance

/-- The number of times the body of the `while` loop runs when at most `n`
runs are allowed and the loop is entered at the point `z`. -/
def escSteps (cr ci : F32) : ℕ → F32 × F32 → ℕ
  | 0, _ => 0
  | n + 1, z =>
    if escaped (mandelStep cr ci z) then 1 else 1 + escSteps cr ci n (mandelStep cr ci z)

/-- The point `(zr, zi)` the `while` loop is left with when at most `n` runs of
its body are allowed and the loop is entered at the point `z`. -/
def loopEnd (cr ci : F32) : ℕ → F32 × F32 → F32 × F32
  | 0, z => z
  | n + 1, z =>
    if escaped (mandelStep cr ci z) then mandelStep cr ci z
    else loopEnd cr ci n (mandelStep cr ci z)

/-- The value of `mk` after `n` executions of `mk += 1.0f`. -/
def mkAfter : ℕ → F32 → F32
  | 0, mk => mk
  | n + 1, mk => mkAfter n (add mk (dyadic 1 0))

/-- The orbit of the code: `z_0 = (cr, ci)` and `z_{n+1}` is the update of
`z_n` by the body of the loop. -/
def orbit (cr ci : F32) (n : ℕ) : F32 × F32 := (mandelStep cr ci)^[n] (cr, ci)

/-- The real part of the plane point of the specification,
`cr = x * (xlim.hi - xlim.lo) / width + xlim.lo`, evaluated in binary32 from
left to right. -/
def ref_cr (s : spec) (x : Int) : F32 :=
  add (div (mul (ofInt x) (sub s.xlim.2 s.xlim.1)) (ofInt s.width)) s.xlim.1

/-- The imaginary part of the plane point of the specification,
`ci = y * (ylim.hi - ylim.lo) / height + ylim.lo`, evaluated in binary32 from
left to right. -/
def ref_ci (s : spec) (y : Int) : F32 :=
  add (div (mul (ofInt y) (sub s.ylim.2 s.ylim.1)) (ofInt s.height)) s.ylim.1

/-- One step of the orbit of the specification,
`z_{n+1} = (zr_n^2 - zi_n^2 + cr, 2*zr_n*zi_n + ci)`, evaluated in binary32
from left to right. -/
def refStep (cr ci : F32) (z : F32 × F32) : F32 × F32 :=
  (add (sub (mul z.1 z.1) (mul z.2 z.2)) cr, add (mul (mul (dyadic 2 0) z.1) z.2) ci)

/-- The orbit of the specification from `z_0 = (cr, ci)`. -/
def refOrbit (cr ci : F32) (n : ℕ) : F32 × F32 := (refStep cr ci)^[n] (cr, ci)

/-- The escape test of the specification, `zr_n^2 + zi_n^2 >= 4`, evaluated in
binary32. -/
def refEscaped (z : F32 × F32) : Bool := ge (add (mul z.1 z.1) (mul z.2 z.2)) (dyadic 4 0)

/-- The real part of the plane point of the specification in exact
rationals. -/
def ref_crQ (s : spec) (x : Int) : ℚ :=
  (x : ℚ) * (toRat s.xlim.2 - toRat s.xlim.1) / (s.width : ℚ) + toRat s.xlim.1

/-- The imaginary part of the plane point of the specification in exact
rationals. -/
def ref_ciQ (s : spec) (y : Int) : ℚ :=
  (y : ℚ) * (toRat s.ylim.2 - toRat s.ylim.1) / (s.height : ℚ) + toRat s.ylim.1

/-- One step of the orbit of the specification in exact rationals. -/
def refStepQ (cr ci : ℚ) (z : ℚ × ℚ) : ℚ × ℚ :=
  (z.1 ^ 2 - z.2 ^ 2 + cr, 2 * z.1 * z.2 + ci)

/-- The orbit of the specification from `z_0 = (cr, ci)` in exact rationals. -/
def refOrbitQ (cr ci : ℚ) (n : ℕ) : ℚ × ℚ := (refStepQ cr ci)^[n] (cr, ci)

/-- The squared modulus `zr_n^2 + zi_n^2` in exact rationals. -/
def normSqQ (z : ℚ × ℚ) : ℚ := z.1 ^ 2 + z.2 ^ 2

/-- One step of the exact orbit of the point `(p / q, r / q)` on fractions
`(a / d, b / d)` held as triples `(a, b, d)` of integers. -/
def fracStep (p r q : Int) (t : Int × Int × Int) : Int × Int × Int :=
  ((t.1 * t.1 - t.2.1 * t.2.1) * q + p * (t.2.2 * t.2.2),
    2 * t.1 * t.2.1 * q + r * (t.2.2 * t.2.2), t.2.2 * t.2.2 * q)

/-- The exact orbit of the point `(p / q, r / q)` as triples of integers. -/
def fracOrbit (p r q : Int) (n : ℕ) : Int × Int × Int := (fracStep p r q)^[n] (p, r, q)

/-- Complex conjugation of a point of the plane. -/
def conj (z : F32 × F32) : F32 × F32 := (z.1, -z.2)

/-- The number of bytes a pixel takes: 2 when `depth > 256`, else 1. -/
def bytesPerPixel (s : spec) : Int := if s.depth > 256 then 2 else 1

/-- The stores `image[i] = v` of a list of pairs `(i, v)`, done from left to
right. -/
def applyStores (im : Image) (l : List (Int × Int)) : Image :=
  l.foldl (fun acc p => acc.store p.1 p.2) im

/-- The stores of `pixelBody s y x`, in the order they are done. -/
def pixelStores (s : spec) (y x : Int) : List (Int × Int) :=
  if s.depth > 256 then
    [(iadd (iadd (imul (imul y s.width) 2) (imul x 2)) 0, pixel s x y >>> (8 : ℕ)),
      (iadd (iadd (imul (imul y s.width) 2) (imul x 2)) 1, pixel s x y)]
  else
    [(iadd (imul y s.width) x, pixel s x y)]

/-- The stores of `rowBody s y`, in the order they are done. -/
def rowStores (s : spec) (y : Int) : List (Int × Int) :=
  (List.range s.width.toNat).flatMap (fun x => pixelStores s y (x : Int))

/-- The rows `0, 1, ..., height - 1` in increasing order. -/
def rowsInOrder (s : spec) : List Int :=
  List.map (fun (y : ℕ) => (y : Int)) (List.range s.height.toNat)

/-- The rows of a list processed one after the other, each by `rowBody`. -/
def processRows (s : spec) (rows : List Int) (image : Image) : Image :=
  rows.foldl (fun acc y => rowBody s y acc) image

/-- The byte `mandel_basic` stores at position `b` of a pixel whose escape count
is `p`: with two bytes per pixel the high byte `p >> 8` comes first, then the
low byte; with one byte per pixel there is the low byte only. -/
def sampleByte (s : spec) (p b : Int) : Int :=
  if s.depth > 256 then (if b = 0 then (p >>> (8 : ℕ)) % 256 else p % 256) else p % 256

/-! ## Rounding to binary32 -/

namespace F32

theorem ilog2Aux_spec (fuel : ℕ) :
    ∀ n, n ≤ fuel → 0 < n → 2 ^ ilog2Aux fuel n ≤ n ∧ n < 2 ^ (ilog2Aux fuel n + 1) := by
  induction fuel with
  | zero => intro n h0 hpos; omega
  | succ fuel ih =>
    intro n hn hpos
    unfold ilog2Aux
    by_cases h2 : n < 2
    · have h1 : n = 1 := by omega
      simp [h1]
    · rw [if_neg h2]
      obtain ⟨hlo, hhi⟩ := ih (n / 2) (by omega) (by omega)
      rw [pow_succ] at hhi ⊢
      rw [pow_succ]
      constructor <;> omega

theorem ilog2Fast_spec (k : ℕ) :
    ∀ m, 0 < m → m < 2 ^ 2 ^ k → 2 ^ ilog2Fast k m ≤ m ∧ m < 2 ^ (ilog2Fast k m + 1) := by
  induction k with
  | zero =>
    intro m hpos hlt
    have h1 : m = 1 := by
      simp at hlt
      omega
    simp [ilog2Fast, h1]
  | succ k ih =>
    intro m hpos hlt
    have hsq : (2 : ℕ) ^ 2 ^ (k + 1) = 2 ^ 2 ^ k * 2 ^ 2 ^ k := by
      rw [← pow_add, pow_succ]
      congr 1
      omega
    have hPpos : 0 < (2 : ℕ) ^ 2 ^ k := by positivity
    unfold ilog2Fast
    by_cases hge : 2 ^ 2 ^ k ≤ m
    · rw [if_pos hge]
      have hq0 : 0 < m / 2 ^ 2 ^ k := Nat.div_pos hge hPpos
      have hq1 : m / 2 ^ 2 ^ k < 2 ^ 2 ^ k := by
        rw [Nat.div_lt_iff_lt_mul hPpos, ← hsq]
        exact hlt
      obtain ⟨hlo, hhi⟩ := ih _ hq0 hq1
      constructor
      · rw [pow_add]
        calc 2 ^ 2 ^ k * 2 ^ ilog2Fast k (m / 2 ^ 2 ^ k)
            ≤ 2 ^ 2 ^ k * (m / 2 ^ 2 ^ k) := Nat.mul_le_mul_left _ hlo
          _ ≤ m := Nat.mul_div_le m _
      · have h1 : m < 2 ^ 2 ^ k * (m / 2 ^ 2 ^ k + 1) := Nat.lt_mul_div_succ m hPpos
        have h2 : m / 2 ^ 2 ^ k + 1 ≤ 2 ^ (ilog2Fast k (m / 2 ^ 2 ^ k) + 1) := hhi
        calc m < 2 ^ 2 ^ k * (m / 2 ^ 2 ^ k + 1) := h1
          _ ≤ 2 ^ 2 ^ k * 2 ^ (ilog2Fast k (m / 2 ^ 2 ^ k) + 1) := Nat.mul_le_mul_left _ h2
          _ = 2 ^ (2 ^ k + ilog2Fast k (m / 2 ^ 2 ^ k) + 1) := by rw [← pow_add, add_assoc]
    · rw [if_neg hge]
      exact ih m hpos (by omega)

theorem ilog2_spec {n : ℕ} (h : 0 < n) : 2 ^ ilog2 n ≤ n ∧ n < 2 ^ (ilog2 n + 1) := by
  unfold ilog2
  split
  · exact ilog2Fast_spec 10 n h (by assumption)
  · exact ilog2Aux_spec n n le_rfl h

theorem ilog2_zero : ilog2 0 = 0 := by decide

theorem ilog2_lt_of_lt_pow {n k : ℕ} (h : n < 2 ^ k) : ilog2 n < k ∨ n = 0 := by
  rcases Nat.eq_zero_or_pos n with h0 | hpos
  · right; exact h0
  · left
    have hlo := (ilog2_spec hpos).1
    exact (Nat.pow_lt_pow_iff_right (by norm_num : 1 < 2)).mp (lt_of_le_of_lt hlo h)

theorem le_ilog2_of_pow_le {n k : ℕ} (h : 2 ^ k ≤ n) : k ≤ ilog2 n := by
  have hpos : 0 < n := lt_of_lt_of_le (by positivity) h
  have hhi := (ilog2_spec hpos).2
  have := (Nat.pow_lt_pow_iff_right (by norm_num : 1 < 2)).mp (lt_of_le_of_lt h hhi)
  omega

theorem ilog2_mono {a b : ℕ} (h : a ≤ b) : ilog2 a ≤ ilog2 b := by
  rcases Nat.eq_zero_or_pos a with h0 | hpos
  · rw [h0, ilog2_zero]; exact Nat.zero_le _
  · exact le_ilog2_of_pow_le (le_trans (ilog2_spec hpos).1 h)

theorem isRep_mul_pow (m e : ℕ) (hm : m < 2 ^ 24) : isRep (m * 2 ^ e) := by
  unfold isRep
  apply Nat.mod_eq_zero_of_dvd
  have hlt : m * 2 ^ e < 2 ^ (24 + e) := by
    rw [pow_add]
    exact Nat.mul_lt_mul_of_pos_right hm (by positivity)
  rcases ilog2_lt_of_lt_pow hlt with h | h
  · exact Dvd.dvd.mul_left (pow_dvd_pow 2 (by omega)) m
  · rw [h]; exact dvd_zero _

theorem roundMag_le {a D v : ℕ} (hD : 0 < D) (hv : isRep v) (h : a ≤ v * D) :
    roundMag a D ≤ v := by
  unfold roundMag
  simp only
  have hq : a / D ≤ v := Nat.div_le_of_le_mul (by rw [mul_comm]; exact h)
  have hjv : ilog2 (a / D) - 23 ≤ ilog2 v - 23 := by
    have := ilog2_mono hq
    omega
  generalize ilog2 (a / D) - 23 = j at hjv
  obtain ⟨c, hc⟩ : 2 ^ j ∣ v :=
    Dvd.dvd.trans (pow_dvd_pow 2 hjv) (Nat.dvd_of_mod_eq_zero hv)
  have hden : 0 < D * 2 ^ j := by positivity
  have ha : a ≤ (D * 2 ^ j) * c := by
    calc a ≤ v * D := h
      _ = (D * 2 ^ j) * c := by rw [hc]; ring
  have hk : a / (D * 2 ^ j) ≤ c := Nat.div_le_of_le_mul ha
  rcases Nat.lt_or_ge (a / (D * 2 ^ j)) c with hlt | hge
  · calc (if D * 2 ^ j < 2 * (a % (D * 2 ^ j)) ∨
              2 * (a % (D * 2 ^ j)) = D * 2 ^ j ∧ a / (D * 2 ^ j) % 2 = 1
            then a / (D * 2 ^ j) + 1 else a / (D * 2 ^ j)) * 2 ^ j
        ≤ (a / (D * 2 ^ j) + 1) * 2 ^ j := by
          apply Nat.mul_le_mul_right
          split <;> omega
      _ ≤ c * 2 ^ j := Nat.mul_le_mul_right _ hlt
      _ = v := by rw [hc, mul_comm]
  · have hkc : a / (D * 2 ^ j) = c := le_antisymm hk hge
    have hmul : (D * 2 ^ j) * c ≤ a := by
      rw [← hkc]
      exact Nat.mul_div_le a _
    have haeq : a = (D * 2 ^ j) * c := le_antisymm ha hmul
    have hr : a % (D * 2 ^ j) = 0 := by
      rw [haeq]
      exact Nat.mul_mod_right _ _
    rw [hr, hkc]
    have hne : ¬ (D * 2 ^ j < 2 * 0 ∨ 2 * 0 = D * 2 ^ j ∧ c % 2 = 1) := by omega
    rw [if_neg hne, hc, mul_comm]

theorem le_roundMag {a D v : ℕ} (hD : 0 < D) (hv : isRep v) (h : v * D ≤ a) :
    v ≤ roundMag a D := by
  unfold roundMag
  simp only
  have hq : v ≤ a / D := (Nat.le_div_iff_mul_le hD).mpr h
  have hfloor : v ≤ a / (D * 2 ^ (ilog2 (a / D) - 23)) * 2 ^ (ilog2 (a / D) - 23) := by
    rw [← Nat.div_div_eq_div_mul]
    rcases Nat.eq_zero_or_pos v with hv0 | hvpos
    · rw [hv0]; exact Nat.zero_le _
    have hqpos : 0 < a / D := lt_of_lt_of_le hvpos hq
    rcases Nat.lt_or_ge (ilog2 v) (ilog2 (a / D)) with hlt | hge
    · have h1 : v < 2 ^ (ilog2 v + 1) := (ilog2_spec hvpos).2
      have h2 : 2 ^ (ilog2 v + 1) ≤ 2 ^ ilog2 (a / D) :=
        Nat.pow_le_pow_right (by norm_num) hlt
      have h3 : 2 ^ ilog2 (a / D) ≤ a / D := (ilog2_spec hqpos).1
      have h4 : 2 ^ ilog2 (a / D) =
          2 ^ (ilog2 (a / D) - (ilog2 (a / D) - 23)) * 2 ^ (ilog2 (a / D) - 23) := by
        rw [← pow_add]
        congr 1
        omega
      have h5 : 2 ^ (ilog2 (a / D) - (ilog2 (a / D) - 23)) ≤
          a / D / 2 ^ (ilog2 (a / D) - 23) :=
        (Nat.le_div_iff_mul_le (by positivity)).mpr (by rw [← h4]; exact h3)
      calc v ≤ 2 ^ ilog2 (a / D) := le_of_lt (lt_of_lt_of_le h1 h2)
        _ = 2 ^ (ilog2 (a / D) - (ilog2 (a / D) - 23)) * 2 ^ (ilog2 (a / D) - 23) := h4
        _ ≤ a / D / 2 ^ (ilog2 (a / D) - 23) * 2 ^ (ilog2 (a / D) - 23) :=
          Nat.mul_le_mul_right _ h5
    · have heq : ilog2 (a / D) = ilog2 v := le_antisymm hge (ilog2_mono hq)
      rw [heq]
      obtain ⟨c, hc⟩ : 2 ^ (ilog2 v - 23) ∣ v := Nat.dvd_of_mod_eq_zero hv
      have hcq : c ≤ a / D / 2 ^ (ilog2 v - 23) :=
        (Nat.le_div_iff_mul_le (by positivity)).mpr (by rw [mul_comm, ← hc]; exact hq)
      calc v = c * 2 ^ (ilog2 v - 23) := by rw [mul_comm]; exact hc
        _ ≤ a / D / 2 ^ (ilog2 v - 23) * 2 ^ (ilog2 v - 23) := Nat.mul_le_mul_right _ hcq
  refine le_trans hfloor (Nat.mul_le_mul_right _ ?_)
  split <;> omega

theorem roundMag_exact {D v : ℕ} (hD : 0 < D) (hv : isRep v) : roundMag (v * D) D = v :=
  le_antisymm (roundMag_le hD hv le_rfl) (le_roundMag hD hv le_rfl)

theorem round_exact (v : Int) (D : ℕ) (hD : 0 < D) (hv : isRep v.natAbs)
    (hlt : v.natAbs < 2 ^ 277) : round (v * (D : Int)) D = fin v := by
  have hab : (v * (D : Int)).natAbs = v.natAbs * D := by
    rw [Int.natAbs_mul, Int.natAbs_ofNat]
  unfold round
  rw [hab, roundMag_exact hD hv, if_neg (by omega)]
  congr 1
  have hDpos : (0 : Int) < (D : Int) := by exact_mod_cast hD
  by_cases hneg : v < 0
  · have : v * (D : Int) < 0 := Int.mul_neg_of_neg_of_pos hneg hDpos
    rw [if_pos this]
    omega
  · have : ¬ v * (D : Int) < 0 := by
      have := Int.mul_nonneg (not_lt.mp hneg) hDpos.le
      omega
    rw [if_neg this]
    omega

theorem roundMag_zero (D : ℕ) : roundMag 0 D = 0 := by
  simp [roundMag, ilog2_zero]

theorem round_zero (D : ℕ) : round 0 D = fin 0 := by
  simp [round, roundMag_zero]

theorem round_neg (N : Int) (D : ℕ) : round (-N) D = neg (round N D) := by
  rcases lt_trichotomy N 0 with h | h | h
  · have h1 : ¬ (-N < 0) := by omega
    unfold round
    rw [Int.natAbs_neg]
    split <;> simp [neg, h, h1]
  · subst h
    simp [round_zero, neg]
  · have h1 : -N < 0 := by omega
    have h2 : ¬ N < 0 := by omega
    unfold round
    rw [Int.natAbs_neg]
    split <;> simp [neg, h1, h2]

end F32

/-! ## Negation and the operations -/

namespace F32

theorem neg_def (a : F32) : -a = neg a := rfl

theorem add_neg_neg (a b : F32) : add (neg a) (neg b) = neg (add a b) := by
  cases a <;> cases b
  case fin.fin a b =>
    show round (-a + -b) 1 = neg (round (a + b) 1)
    rw [← round_neg]
    congr 1
    ring
  case inf.inf s t => cases s <;> cases t <;> rfl
  all_goals rfl

theorem mul_neg_right (a b : F32) : mul a (neg b) = neg (mul a b) := by
  cases a <;> cases b
  case fin.fin a b =>
    show round (a * -b) (2 ^ 149) = neg (round (a * b) (2 ^ 149))
    rw [← round_neg]
    congr 1
    ring
  case fin.inf a s =>
    simp only [mul, neg]
    split
    · rfl
    · cases s <;> cases decide (a < 0) <;> rfl
  case inf.fin s b =>
    simp only [mul, neg]
    by_cases hb : b = 0
    · simp [hb]
    · have hnb : -b ≠ 0 := by omega
      rw [if_neg hb, if_neg hnb]
      by_cases hlt : b < 0
      · have h2 : ¬ (-b < 0) := by omega
        cases s <;> simp [hlt, h2, neg]
      · have h2 : -b < 0 := by omega
        cases s <;> simp [hlt, h2, neg]
  case inf.inf s t => cases s <;> cases t <;> rfl
  all_goals rfl

theorem mul_comm (a b : F32) : mul a b = mul b a := by
  cases a <;> cases b
  case fin.fin a b => simp only [mul, Int.mul_comm]
  case fin.inf a s =>
    simp only [mul]
    split
    · rfl
    · cases s <;> cases decide (a < 0) <;> rfl
  case inf.fin s b =>
    simp only [mul]
    split
    · rfl
    · cases s <;> cases decide (b < 0) <;> rfl
  case inf.inf s t => cases s <;> cases t <;> rfl
  all_goals rfl

theorem mul_neg_left (a b : F32) : mul (neg a) b = neg (mul a b) := by
  rw [mul_comm, mul_neg_right, mul_comm]

theorem neg_neg (a : F32) : neg (neg a) = a := by
  cases a <;> simp [neg]

theorem mul_neg_neg (a b : F32) : mul (neg a) (neg b) = mul a b := by
  rw [mul_neg_left, mul_neg_right, neg_neg]

/-- A nonnegative rational between two binary32 magnitudes rounds to a number
between them. -/
theorem round_between (N : Int) (D lo hi : ℕ) (hD : 0 < D) (hlo : isRep lo) (hhi : isRep hi)
    (hfin : hi < 2 ^ 277) (h0 : 0 ≤ N) (h1 : (lo : Int) * D ≤ N) (h2 : N ≤ (hi : Int) * D) :
    ∃ m : Int, round N D = fin m ∧ (lo : Int) ≤ m ∧ m ≤ (hi : Int) := by
  have hN : ((N.natAbs : ℕ) : Int) = N := Int.natAbs_of_nonneg h0
  have hle : roundMag N.natAbs D ≤ hi := by
    apply roundMag_le hD hhi
    have : ((N.natAbs : ℕ) : Int) ≤ ((hi * D : ℕ) : Int) := by
      rw [hN]; push_cast; exact h2
    exact_mod_cast this
  have hge : lo ≤ roundMag N.natAbs D := by
    apply le_roundMag hD hlo
    have : ((lo * D : ℕ) : Int) ≤ ((N.natAbs : ℕ) : Int) := by
      rw [hN]; push_cast; exact h1
    exact_mod_cast this
  refine ⟨(roundMag N.natAbs D : Int), ?_, by exact_mod_cast hge, by exact_mod_cast hle⟩
  unfold round
  rw [if_neg (by omega), if_neg (by omega)]

end F32

/-! ## The `while` loop -/

theorem escSteps_le (cr ci : F32) (n : ℕ) : ∀ z, escSteps cr ci n z ≤ n := by
  induction n with
  | zero => intro z; simp [escSteps]
  | succ n ih =>
    intro z
    have h := ih (mandelStep cr ci z)
    simp only [escSteps]
    split <;> omega

theorem mkAfter_succ (n : ℕ) : ∀ mk, mkAfter (n + 1) mk = add (mkAfter n mk) (dyadic 1 0) := by
  induction n with
  | zero => intro mk; rfl
  | succ n ih =>
    intro mk
    rw [mkAfter, ih (add mk (dyadic 1 0))]
    rfl

theorem whileLoop_eq (iterations : Int) (cr ci : F32) (n : ℕ) :
    ∀ (k : Int) (zr zi mk : F32), (iterations - 1 - k).toNat = n →
      whileLoop iterations cr ci k zr zi mk =
        { zr := (loopEnd cr ci n (zr, zi)).1, zi := (loopEnd cr ci n (zr, zi)).2,
          mk := mkAfter (escSteps cr ci n (zr, zi)) mk } := by
  induction n with
  | zero =>
    intro k zr zi mk hk
    have hlt : ¬ (k + 1 < iterations) := by omega
    rw [whileLoop, if_neg hlt]
    simp [loopEnd, escSteps, mkAfter]
  | succ n ih =>
    intro k zr zi mk hk
    have hlt : k + 1 < iterations := by omega
    rw [whileLoop, if_pos hlt]
    by_cases hesc : escaped (mandelStep cr ci (zr, zi)) = true
    · simp [loopEnd, escSteps, hesc, mkAfter]
    · have hk1 : (iterations - 1 - (k + 1)).toNat = n := by omega
      simp only [hesc, loopEnd, escSteps, if_false, Bool.false_eq_true]
      rw [ih (k + 1) _ _ _ hk1, Nat.add_comm 1, mkAfter]

theorem innerLoop_eq (iterations : Int) (cr ci : F32) :
    innerLoop iterations cr ci =
      { zr := (loopEnd cr ci (iterations - 1).toNat (cr, ci)).1,
        zi := (loopEnd cr ci (iterations - 1).toNat (cr, ci)).2,
        mk := mkAfter (escSteps cr ci (iterations - 1).toNat (cr, ci)) (fin 0) } := by
  unfold innerLoop
  exact whileLoop_eq iterations cr ci (iterations - 1).toNat 0 cr ci (fin 0) (by simp)

/-- The counter `mk` follows the number of runs up to `2^24`, where adding
`1.0f` no longer changes it. -/
theorem mkAfter_count (n : ℕ) :
    mkAfter n (fin 0) = fin (((min n (2 ^ 24) : ℕ) : Int) * 2 ^ 149) := by
  induction n with
  | zero => rfl
  | succ n ih =>
    rw [mkAfter_succ, ih]
    rcases Nat.lt_or_ge n (2 ^ 24) with hlt | hge
    · have hmin : min n (2 ^ 24) = n := Nat.min_eq_left hlt.le
      have hmin' : min (n + 1) (2 ^ 24) = n + 1 := Nat.min_eq_left hlt
      rw [hmin, hmin']
      have hsum : ((n : ℕ) : Int) * 2 ^ 149 + 1 * 2 ^ (0 + 149 : Int).toNat =
          (((n + 1 : ℕ) : Int) * 2 ^ 149) * ((1 : ℕ) : Int) := by
        have : (0 + 149 : Int).toNat = 149 := rfl
        rw [this]
        push_cast
        ring
      show round (((n : ℕ) : Int) * 2 ^ 149 + 1 * 2 ^ (0 + 149 : Int).toNat) 1 = _
      rw [hsum]
      have habs : (((n + 1 : ℕ) : Int) * 2 ^ 149).natAbs = (n + 1) * 2 ^ 149 := by
        rw [Int.natAbs_mul, Int.natAbs_ofNat, Int.natAbs_pow]
        rfl
      apply round_exact _ 1 (by norm_num)
      · rw [habs]
        rcases Nat.lt_or_ge (n + 1) (2 ^ 24) with h | h
        · exact isRep_mul_pow (n + 1) 149 h
        · have h24 : n + 1 = 2 ^ 24 := by omega
          rw [h24]
          decide
      · rw [habs]
        calc (n + 1) * 2 ^ 149 ≤ 2 ^ 24 * 2 ^ 149 := Nat.mul_le_mul_right _ hlt
          _ < 2 ^ 277 := by norm_num
    · have hmin : min n (2 ^ 24) = 2 ^ 24 := Nat.min_eq_right hge
      have hmin' : min (n + 1) (2 ^ 24) = 2 ^ 24 := Nat.min_eq_right (by omega)
      rw [hmin, hmin']
      decide

theorem toInt_count (c : ℕ) (hc : c ≤ 2 ^ 24) :
    toInt (fin ((c : Int) * 2 ^ 149)) = (c : Int) := by
  have htd : Int.tdiv ((c : Int) * 2 ^ 149) (2 ^ 149) = (c : Int) :=
    Int.mul_tdiv_cancel _ (by norm_num)
  simp only [toInt, htd]
  have h1 : (c : Int) ≤ 2 ^ 24 := by exact_mod_cast hc
  have h2 : -2147483648 ≤ (c : Int) ∧ (c : Int) < 2147483648 := by
    constructor
    · have := Int.natCast_nonneg c
      omega
    · omega
  rw [if_pos h2]

theorem escapeCount_eq (iterations : Int) (cr ci : F32) :
    escapeCount iterations cr ci =
      ((min (escSteps cr ci (iterations - 1).toNat (cr, ci)) (2 ^ 24) : ℕ) : Int) := by
  unfold escapeCount
  rw [innerLoop_eq, mkAfter_count]
  exact toInt_count _ (Nat.min_le_right _ _)

theorem escapeCount_bounds (iterations : Int) (cr ci : F32) (hit : 1 ≤ iterations) :
    0 ≤ escapeCount iterations cr ci ∧ escapeCount iterations cr ci ≤ iterations - 1 := by
  rw [escapeCount_eq]
  have h := escSteps_le cr ci (iterations - 1).toNat (cr, ci)
  have h2 := Nat.min_le_left (escSteps cr ci (iterations - 1).toNat (cr, ci)) (2 ^ 24)
  omega

/-- When no point of the orbit within reach escapes, the body runs as often as
it is allowed to. -/
theorem escSteps_of_no_escape (cr ci : F32) (n : ℕ) :
    ∀ z, (∀ j, 1 ≤ j → j ≤ n → escaped ((mandelStep cr ci)^[j] z) = false) →
      escSteps cr ci n z = n := by
  induction n with
  | zero => intro z _; rfl
  | succ n ih =>
    intro z h
    have h1 : escaped (mandelStep cr ci z) = false := by
      simpa using h 1 le_rfl (by omega)
    have h2 : escSteps cr ci n (mandelStep cr ci z) = n := by
      apply ih
      intro j hj1 hjn
      have := h (j + 1) (by omega) (by omega)
      simpa [Function.iterate_succ_apply] using this
    simp only [escSteps, h1, h2, Bool.false_eq_true, if_false]
    omega

/-- When the orbit first escapes at step `m`, within reach, the body runs `m`
times. -/
theorem escSteps_of_first_escape (cr ci : F32) (n : ℕ) :
    ∀ z m, 1 ≤ m → m ≤ n → escaped ((mandelStep cr ci)^[m] z) = true →
      (∀ j, 1 ≤ j → j < m → escaped ((mandelStep cr ci)^[j] z) = false) →
      escSteps cr ci n z = m := by
  induction n with
  | zero => intro z m h1 h0; omega
  | succ n ih =>
    intro z m hm1 hmn hesc hbefore
    by_cases h1 : escaped (mandelStep cr ci z) = true
    · have hm : m = 1 := by
        by_contra hne
        have := hbefore 1 le_rfl (by omega)
        simp [h1] at this
      simp [escSteps, h1, hm]
    · obtain ⟨m', rfl⟩ : ∃ m', m = m' + 1 := ⟨m - 1, by omega⟩
      have hm' : 1 ≤ m' := by
        by_contra hlt
        have h0 : m' = 0 := by omega
        subst h0
        exact h1 (by simpa using hesc)
      have := ih (mandelStep cr ci z) m' hm' (by omega)
        (by simpa [Function.iterate_succ_apply] using hesc)
        (by
          intro j hj1 hjm
          have := hbefore (j + 1) (by omega) (by omega)
          simpa [Function.iterate_succ_apply] using this)
      have h1f : escaped (mandelStep cr ci z) = false := by simpa using h1
      simp only [escSteps, h1f, this, Bool.false_eq_true, if_false]
      omega

/-- The escape count of a plane point is the escape time of its orbit, as
long as the counter `mk` is exact. -/
theorem escapeCount_orbit (iterations : Int) (cr ci : F32) (hit : 1 ≤ iterations)
    (hmax : iterations ≤ 2 ^ 24 + 1) :
    ((∃ n : ℕ, 1 ≤ n ∧ (n : Int) ≤ iterations - 1 ∧ escaped (orbit cr ci n) = true) →
      ∃ n : ℕ, escapeCount iterations cr ci = (n : Int) ∧ 1 ≤ n ∧
        (n : Int) ≤ iterations - 1 ∧ escaped (orbit cr ci n) = true ∧
        ∀ m : ℕ, 1 ≤ m → m < n → escaped (orbit cr ci m) = false) ∧
    ((∀ n : ℕ, 1 ≤ n → (n : Int) ≤ iterations - 1 → escaped (orbit cr ci n) = false) →
      escapeCount iterations cr ci = iterations - 1) := by
  classical
  have hcap : ∀ m : ℕ, (m : Int) ≤ iterations - 1 → min m (2 ^ 24) = m := by
    intro m hm
    apply Nat.min_eq_left
    have : (m : Int) ≤ 2 ^ 24 := by omega
    exact_mod_cast this
  constructor
  · intro hex
    have hspec := Nat.find_spec hex
    refine ⟨Nat.find hex, ?_, hspec.1, hspec.2.1, hspec.2.2, ?_⟩
    · rw [escapeCount_eq]
      have hsteps : escSteps cr ci (iterations - 1).toNat (cr, ci) = Nat.find hex := by
        apply escSteps_of_first_escape
        · exact hspec.1
        · have := hspec.2.1
          omega
        · exact hspec.2.2
        · intro j hj1 hjm
          have hmin := Nat.find_min hex hjm
          have hle : (j : Int) ≤ iterations - 1 := by
            have := hspec.2.1
            omega
          have hnot : ¬ escaped (orbit cr ci j) = true := fun h => hmin ⟨hj1, hle, h⟩
          simpa [orbit] using hnot
      rw [hsteps, hcap _ hspec.2.1]
    · intro m hm1 hmn
      have hmin := Nat.find_min hex hmn
      have hle : (m : Int) ≤ iterations - 1 := by
        have := hspec.2.1
        omega
      have hnot : ¬ escaped (orbit cr ci m) = true := fun h => hmin ⟨hm1, hle, h⟩
      simpa using hnot
  · intro hnone
    rw [escapeCount_eq, escSteps_of_no_escape]
    · rw [hcap _ (by omega)]
      omega
    · intro j hj1 hjn
      exact hnone j hj1 (by omega)

/-! ## Conjugation -/

theorem mandelStep_conj (cr ci : F32) (z : F32 × F32) :
    mandelStep cr (-ci) (conj z) = conj (mandelStep cr ci z) := by
  simp only [mandelStep, conj, neg_def, mul_neg_left, mul_neg_right, neg_neg, add_neg_neg]

theorem escaped_conj (z : F32 × F32) : escaped (conj z) = escaped z := by
  simp only [escaped, conj, neg_def, mul_neg_left, mul_neg_right, neg_neg]

theorem escSteps_conj (cr ci : F32) (n : ℕ) :
    ∀ z, escSteps cr (-ci) n (conj z) = escSteps cr ci n z := by
  induction n with
  | zero => intro z; rfl
  | succ n ih =>
    intro z
    simp only [escSteps, mandelStep_conj, escaped_conj, ih]

theorem loopEnd_conj (cr ci : F32) (n : ℕ) :
    ∀ z, loopEnd cr (-ci) n (conj z) = conj (loopEnd cr ci n z) := by
  induction n with
  | zero => intro z; rfl
  | succ n ih =>
    intro z
    simp only [loopEnd, mandelStep_conj, escaped_conj, ih]
    split <;> rfl

theorem iterate_conj (cr ci : F32) (n : ℕ) :
    ∀ z, (mandelStep cr (-ci))^[n] (conj z) = conj ((mandelStep cr ci)^[n] z) := by
  induction n with
  | zero => intro z; rfl
  | succ n ih =>
    intro z
    rw [Function.iterate_succ_apply, Function.iterate_succ_apply, mandelStep_conj, ih]

theorem escapeCount_conj (iterations : Int) (cr ci : F32) :
    escapeCount iterations cr (-ci) = escapeCount iterations cr ci := by
  rw [escapeCount_eq, escapeCount_eq]
  have h := escSteps_conj cr ci (iterations - 1).toNat (cr, ci)
  simp only [conj] at h
  rw [h]

/-! ## Points that never escape -/

/-- A set of points that the update maps into itself and that lies inside the
escape radius keeps the loop running as long as it is allowed to. -/
theorem escSteps_of_invariant (cr ci : F32) (P : F32 × F32 → Prop)
    (hstep : ∀ z, P z → P (mandelStep cr ci z) ∧ escaped (mandelStep cr ci z) = false)
    (n : ℕ) : ∀ z, P z → escSteps cr ci n z = n := by
  induction n with
  | zero => intro z _; rfl
  | succ n ih =>
    intro z hz
    obtain ⟨hP, hesc⟩ := hstep z hz
    simp only [escSteps, hesc, ih _ hP, Bool.false_eq_true, if_false]
    omega

/-- The square of a binary32 number between `-0.5` and `0` is a binary32
number between `0` and `0.25`. -/
theorem mul_self_small (n : Int) (hlo : -2 ^ 148 ≤ n) (hhi : n ≤ 0) :
    ∃ m : Int, mul (fin n) (fin n) = fin m ∧ 0 ≤ m ∧ m ≤ 2 ^ 147 := by
  have hsq : n * n ≤ 2 ^ 148 * 2 ^ 148 := by nlinarith
  have hpos : 0 ≤ n * n := mul_self_nonneg n
  obtain ⟨m, hm, h0, h1⟩ := round_between (n * n) (2 ^ 149) 0 (2 ^ 147) (by norm_num)
    (by decide) (by decide) (by norm_num) hpos (by push_cast; simpa using hpos)
    (by push_cast; norm_num at hsq ⊢; exact hsq)
  exact ⟨m, hm, by exact_mod_cast h0, by exact_mod_cast h1⟩

/-- A binary32 number between `0` and `0.25` plus zero is a binary32 number
between `0` and `0.25`. -/
theorem add_zero_small (m : Int) (h0 : 0 ≤ m) (h1 : m ≤ 2 ^ 147) :
    ∃ m' : Int, add (fin m) (fin 0) = fin m' ∧ 0 ≤ m' ∧ m' ≤ 2 ^ 147 := by
  obtain ⟨m', hm', hm'0, hm'1⟩ := round_between (m + 0) 1 0 (2 ^ 147) (by norm_num)
    (by decide) (by decide) (by norm_num) (by omega) (by push_cast; omega)
    (by push_cast; omega)
  exact ⟨m', hm', by exact_mod_cast hm'0, by exact_mod_cast hm'1⟩

/-- A binary32 number between `0` and `0.25` minus `0.5` is a binary32 number
between `-0.5` and `-0.25`. -/
theorem add_minus_half (m : Int) (h0 : 0 ≤ m) (h1 : m ≤ 2 ^ 147) :
    ∃ p : Int, add (fin m) (dyadic (-1) (-1)) = fin p ∧ -2 ^ 148 ≤ p ∧ p ≤ -2 ^ 147 := by
  obtain ⟨p, hp, hp0, hp1⟩ := round_between (-(m + -2 ^ 148)) 1 (2 ^ 147) (2 ^ 148)
    (by norm_num) (by decide) (by decide) (by norm_num) (by omega) (by push_cast; omega)
    (by push_cast; omega)
  have hp0' : (2 : Int) ^ 147 ≤ p := by exact_mod_cast hp0
  have hp1' : p ≤ (2 : Int) ^ 148 := by exact_mod_cast hp1
  refine ⟨-p, ?_, by omega, by omega⟩
  show round (m + -1 * 2 ^ (-1 + 149 : Int).toNat) 1 = fin (-p)
  have he : (-1 + 149 : Int).toNat = 148 := rfl
  have hN : m + -1 * 2 ^ 148 = -(-(m + -2 ^ 148)) := by ring
  rw [he, hN, round_neg, hp]
  rfl

/-- The point `c = -0.5`: the orbit stays on the real axis between `-0.5` and
`0`, so the loop is never left through the escape test. -/
theorem escSteps_minus_half (n : ℕ) :
    escSteps (dyadic (-1) (-1)) (fin 0) n (dyadic (-1) (-1), fin 0) = n := by
  apply escSteps_of_invariant (dyadic (-1) (-1)) (fin 0)
    (fun z => z.2 = fin 0 ∧ ∃ n : Int, z.1 = fin n ∧ -2 ^ 148 ≤ n ∧ n ≤ 0)
  · rintro ⟨zr, zi⟩ ⟨hzi, a, hzr, hlo, hhi⟩
    simp only at hzi hzr
    subst hzi hzr
    obtain ⟨m, hm, hm0, hm1⟩ := mul_self_small a hlo hhi
    have hz0 : mul (fin 0) (fin 0) = fin 0 := by decide
    have ha0 : mul (fin a) (fin 0) = fin 0 := by
      show round (a * 0) (2 ^ 149) = fin 0
      rw [Int.mul_zero, round_zero]
    have h00 : add (fin 0) (fin 0) = fin 0 := by decide
    obtain ⟨m', hm', hm'0, hm'1⟩ := add_zero_small m hm0 hm1
    have hsub : sub (fin m) (fin 0) = fin m' := hm'
    obtain ⟨p, hp, hp0, hp1⟩ := add_minus_half m' hm'0 hm'1
    have hstep : mandelStep (dyadic (-1) (-1)) (fin 0) (fin a, fin 0) = (fin p, fin 0) := by
      simp only [mandelStep, hm, hz0, hsub, hp, ha0, h00]
    rw [hstep]
    refine ⟨⟨rfl, p, rfl, hp0, by omega⟩, ?_⟩
    obtain ⟨q, hq, hq0, hq1⟩ := mul_self_small p hp0 (by omega)
    obtain ⟨q', hq', hq'0, hq'1⟩ := add_zero_small q hq0 hq1
    simp only [escaped, hq, hz0, hq']
    show decide ((4 : Int) * 2 ^ (0 + 149 : Int).toNat ≤ q') = false
    have he : (0 + 149 : Int).toNat = 149 := rfl
    rw [he, decide_eq_false_iff_not]
    omega
  · exact ⟨rfl, -2 ^ 148, by decide, le_refl _, by norm_num⟩

/-! ## Rows of a grid whose height is a power of two -/

/-- A value whose magnitude is `m * 2^e` with `m` below `2^24` is a binary32
number, and a rational equal to it rounds to it. -/
theorem round_of_dyadic (N v : Int) (D m e : ℕ) (hD : 0 < D) (hN : N = v * (D : Int))
    (hv : v.natAbs = m * 2 ^ e) (hm : m < 2 ^ 24) (he : e + 24 ≤ 277) :
    round N D = fin v := by
  rw [hN]
  apply round_exact v D hD
  · rw [hv]
    exact isRep_mul_pow m e hm
  · rw [hv]
    calc m * 2 ^ e < 2 ^ 24 * 2 ^ e := Nat.mul_lt_mul_of_pos_right hm (by positivity)
      _ = 2 ^ (24 + e) := by rw [pow_add]
      _ ≤ 2 ^ 277 := Nat.pow_le_pow_right (by norm_num) (by omega)

theorem ofInt_small (y : ℕ) (hy : y < 2 ^ 24) : ofInt (y : Int) = fin ((y : Int) * 2 ^ 149) := by
  unfold ofInt
  apply round_of_dyadic _ _ 1 y 149 (by norm_num) (by simp) _ hy (by norm_num)
  rw [Int.natAbs_mul, Int.natAbs_ofNat, Int.natAbs_pow]
  rfl

/-- For the canonical bounds `ylim = [-1.5, 1.5]` and a height `2^k` with
`1 <= k <= 22`, every operation of `ci = y * yscale + ylim[0]` is exact: the
result is `3 * (y - 2^(k-1)) / 2^k`. -/
theorem pixel_ci_pow2 (s : spec) (k : ℕ) (hk1 : 1 ≤ k) (hk : k ≤ 22)
    (hyl : s.ylim = (dyadic (-3) (-1), dyadic 3 (-1))) (hh : s.height = 2 ^ k)
    (y : ℕ) (hy : y ≤ 2 ^ k) :
    pixel_ci s (y : Int) = fin (3 * ((y : Int) - 2 ^ (k - 1)) * 2 ^ (149 - k)) := by
  have hK : (2 : ℕ) ^ k ≤ 2 ^ 22 := Nat.pow_le_pow_right (by norm_num) hk
  have hH : (2 : ℕ) ^ k = 2 * 2 ^ (k - 1) := by
    rw [← pow_succ']
    congr 1
    omega
  have hP : (2 : ℕ) ^ 149 = 2 ^ k * 2 ^ (149 - k) := by
    rw [← pow_add]
    congr 1
    omega
  have hHZ : (2 : Int) ^ k = 2 * 2 ^ (k - 1) := by exact_mod_cast hH
  have hPZ : (2 : Int) ^ 149 = 2 ^ k * 2 ^ (149 - k) := by exact_mod_cast hP
  have hsub : sub (dyadic 3 (-1)) (dyadic (-3) (-1)) = fin (3 * 2 ^ 149) := by decide
  have hof : ofInt ((2 : Int) ^ k) = fin (((2 ^ k : ℕ) : Int) * 2 ^ 149) := by
    have := ofInt_small (2 ^ k) (lt_of_le_of_lt hK (by norm_num))
    simpa using this
  have hscale : yscale s = fin (3 * 2 ^ (149 - k)) := by
    unfold yscale
    rw [hyl, hh, hsub, hof]
    have hb : ((2 ^ k : ℕ) : Int) * 2 ^ 149 ≠ 0 := by positivity
    have hb' : ¬ ((2 ^ k : ℕ) : Int) * 2 ^ 149 < 0 := by
      have : (0 : Int) ≤ ((2 ^ k : ℕ) : Int) * 2 ^ 149 := by positivity
      omega
    show (if ((2 ^ k : ℕ) : Int) * 2 ^ 149 = 0 then _ else _) = _
    rw [if_neg hb, if_neg hb']
    have hna : (((2 ^ k : ℕ) : Int) * 2 ^ 149).natAbs = 2 ^ k * 2 ^ 149 := by
      rw [Int.natAbs_mul, Int.natAbs_ofNat, Int.natAbs_pow]
      rfl
    rw [hna]
    apply round_of_dyadic _ _ _ 3 (149 - k) (by positivity) _ _ (by norm_num) (by omega)
    · simp only [Nat.cast_mul, Nat.cast_pow, Nat.cast_ofNat]
      rw [hPZ]
      ring
    · rw [Int.natAbs_mul, Int.natAbs_pow]
      rfl
  have hy24 : y < 2 ^ 24 := lt_of_le_of_lt (le_trans hy hK) (by norm_num)
  have hmul : mul (ofInt (y : Int)) (yscale s) = fin (3 * (y : Int) * 2 ^ (149 - k)) := by
    rw [ofInt_small y hy24, hscale]
    show round ((y : Int) * 2 ^ 149 * (3 * 2 ^ (149 - k))) (2 ^ 149) = _
    apply round_of_dyadic _ _ _ (3 * y) (149 - k) (by positivity) _ _ (by omega) (by omega)
    · push_cast
      ring
    · rw [Int.natAbs_mul, Int.natAbs_mul, Int.natAbs_pow, Int.natAbs_ofNat]
      rfl
  unfold pixel_ci
  rw [hmul, hyl]
  show round (3 * (y : Int) * 2 ^ (149 - k) + -3 * 2 ^ (-1 + 149 : Int).toNat) 1 = _
  have he : (-1 + 149 : Int).toNat = 148 := rfl
  have h148 : (2 : Int) ^ 148 = 2 ^ (k - 1) * 2 ^ (149 - k) := by
    rw [← pow_add]
    congr 1
    omega
  rw [he]
  rcases Nat.lt_or_ge y (2 ^ (k - 1)) with hlt | hge
  · apply round_of_dyadic _ _ 1 (3 * (2 ^ (k - 1) - y)) (149 - k) (by norm_num) _ _
      (by omega) (by omega)
    · rw [h148]
      push_cast
      ring
    · have hneg : 3 * ((y : Int) - 2 ^ (k - 1)) * 2 ^ (149 - k) =
          -(((3 * (2 ^ (k - 1) - y) * 2 ^ (149 - k) : ℕ)) : Int) := by
        push_cast [Nat.cast_sub hlt.le]
        ring
      rw [hneg, Int.natAbs_neg, Int.natAbs_ofNat]
  · apply round_of_dyadic _ _ 1 (3 * (y - 2 ^ (k - 1))) (149 - k) (by norm_num) _ _
      (by omega) (by omega)
    · rw [h148]
      push_cast
      ring
    · have hpos : 3 * ((y : Int) - 2 ^ (k - 1)) * 2 ^ (149 - k) =
          (((3 * (y - 2 ^ (k - 1)) * 2 ^ (149 - k) : ℕ)) : Int) := by
        push_cast [Nat.cast_sub hge]
        ring
      rw [hpos, Int.natAbs_ofNat]

/-- For the canonical bounds and a height `2^k` with `1 <= k <= 22`, the rows
`y` and `height - y` are sampled at opposite imaginary parts. -/
theorem pixel_ci_reflect (s : spec) (k : ℕ) (hk1 : 1 ≤ k) (hk : k ≤ 22)
    (hyl : s.ylim = (dyadic (-3) (-1), dyadic 3 (-1))) (hh : s.height = 2 ^ k)
    (y : Int) (hy0 : 0 ≤ y) (hy : y ≤ s.height) :
    pixel_ci s (s.height - y) = -pixel_ci s y := by
  lift y to ℕ using hy0
  have hyn : y ≤ 2 ^ k := by
    rw [hh] at hy
    exact_mod_cast hy
  have hH : (2 : Int) ^ k = 2 * 2 ^ (k - 1) := by
    rw [← pow_succ']
    congr 1
    omega
  have hsub : s.height - (y : Int) = ((2 ^ k - y : ℕ) : Int) := by
    rw [hh]
    push_cast [Nat.cast_sub hyn]
    ring
  rw [hsub, pixel_ci_pow2 s k hk1 hk hyl hh _ (Nat.sub_le _ _),
    pixel_ci_pow2 s k hk1 hk hyl hh y hyn, neg_def]
  show fin _ = fin _
  congr 1
  push_cast [Nat.cast_sub hyn]
  rw [hH]
  ring

/-! ## 32-bit index arithmetic -/

theorem wrapInt_eq (v : Int) (h0 : -2147483648 ≤ v) (h1 : v < 2147483648) : wrapInt v = v := by
  unfold wrapInt
  omega

theorem wrapInt_range (v : Int) : -2147483648 ≤ wrapInt v ∧ wrapInt v < 2147483648 := by
  unfold wrapInt
  omega

theorem bytesPerPixel_cases (s : spec) :
    (s.depth > 256 ∧ bytesPerPixel s = 2) ∨ (¬ s.depth > 256 ∧ bytesPerPixel s = 1) := by
  unfold bytesPerPixel
  by_cases h : s.depth > 256
  · left; simp [h]
  · right; simp [h]

/-- Inside the grid the number `y * width + x` of a pixel is below
`width * height`. -/
theorem pixel_number_bound (s : spec) (x y : Int) (hx : x < s.width) (hy0 : 0 ≤ y)
    (hy : y < s.height) (hw : 0 < s.width) :
    0 ≤ y * s.width ∧ y * s.width + x < s.width * s.height := by
  constructor
  · exact Int.mul_nonneg hy0 hw.le
  · have h1 : (y + 1) * s.width ≤ s.height * s.width :=
      mul_le_mul_of_nonneg_right (by omega) hw.le
    have h2 : (y + 1) * s.width = y * s.width + s.width := by ring
    have h3 : s.height * s.width = s.width * s.height := mul_comm _ _
    omega

/-- When the size of the image fits an `int`, the index arithmetic of a pixel
inside the grid does not overflow. -/
theorem pixelStores_exact (s : spec) (x y : Int) (hx0 : 0 ≤ x) (hx : x < s.width)
    (hy0 : 0 ≤ y) (hy : y < s.height)
    (hov : s.width * s.height * bytesPerPixel s < 2 ^ 31) :
    pixelStores s y x =
      if s.depth > 256 then
        [(y * s.width * 2 + x * 2 + 0, pixel s x y >>> (8 : ℕ)),
          (y * s.width * 2 + x * 2 + 1, pixel s x y)]
      else [(y * s.width + x, pixel s x y)] := by
  have hw : 0 < s.width := by omega
  obtain ⟨hb0, hb1⟩ := pixel_number_bound s x y hx hy0 hy hw
  unfold pixelStores
  rcases bytesPerPixel_cases s with ⟨hd, hb⟩ | ⟨hd, hb⟩
  · rw [hb] at hov
    have e1 : imul y s.width = y * s.width := wrapInt_eq _ (by omega) (by omega)
    have e2 : imul (y * s.width) 2 = y * s.width * 2 := wrapInt_eq _ (by omega) (by omega)
    have e3 : imul x 2 = x * 2 := wrapInt_eq _ (by omega) (by omega)
    have e4 : iadd (y * s.width * 2) (x * 2) = y * s.width * 2 + x * 2 :=
      wrapInt_eq _ (by omega) (by omega)
    have e5 : iadd (y * s.width * 2 + x * 2) 0 = y * s.width * 2 + x * 2 + 0 :=
      wrapInt_eq _ (by omega) (by omega)
    have e6 : iadd (y * s.width * 2 + x * 2) 1 = y * s.width * 2 + x * 2 + 1 :=
      wrapInt_eq _ (by omega) (by omega)
    rw [if_pos hd, if_pos hd, e1, e2, e3, e4, e5, e6]
  · rw [hb] at hov
    have e1 : imul y s.width = y * s.width := wrapInt_eq _ (by omega) (by omega)
    have e2 : iadd (y * s.width) x = y * s.width + x := wrapInt_eq _ (by omega) (by omega)
    rw [if_neg hd, if_neg hd, e1, e2]

/-- Every store of `pixelBody` goes to an offset an `int` can hold. -/
theorem pixelStores_int_range (s : spec) (x y : Int) (p : Int × Int)
    (hp : p ∈ pixelStores s y x) : -2147483648 ≤ p.1 ∧ p.1 < 2147483648 := by
  unfold pixelStores at hp
  split at hp
  · simp only [List.mem_cons, List.mem_singleton, List.not_mem_nil, or_false] at hp
    rcases hp with h | h <;> rw [h] <;> exact wrapInt_range _
  · simp only [List.mem_singleton] at hp
    rw [hp]
    exact wrapInt_range _

/-! ## Stores into the image -/

theorem applyStores_nil (im : Image) : applyStores im [] = im := rfl

theorem applyStores_cons (im : Image) (p : Int × Int) (l : List (Int × Int)) :
    applyStores im (p :: l) = applyStores (im.store p.1 p.2) l := rfl

theorem applyStores_append (im : Image) (l₁ l₂ : List (Int × Int)) :
    applyStores im (l₁ ++ l₂) = applyStores (applyStores im l₁) l₂ := by
  simp [applyStores, List.foldl_append]

theorem foldl_applyStores {α : Type} (f : α → List (Int × Int)) (L : List α) :
    ∀ im : Image, L.foldl (fun acc a => applyStores acc (f a)) im = applyStores im (L.flatMap f) := by
  induction L with
  | nil => intro im; rfl
  | cons a L ih =>
    intro im
    rw [List.foldl_cons, ih, List.flatMap_cons, applyStores_append]

theorem applyStores_written (l : List (Int × Int)) :
    ∀ im : Image, (applyStores im l).written = (l.map Prod.fst).reverse ++ im.written := by
  induction l with
  | nil => intro im; simp [applyStores_nil]
  | cons p l ih =>
    intro im
    rw [applyStores_cons, ih]
    simp [Image.store]

theorem applyStores_bytes_of_not_mem (l : List (Int × Int)) (i : Int) :
    ∀ im : Image, i ∉ l.map Prod.fst → (applyStores im l).bytes i = im.bytes i := by
  induction l with
  | nil => intro im _; rfl
  | cons p l ih =>
    intro im hi
    simp only [List.map_cons, List.mem_cons, not_or] at hi
    rw [applyStores_cons, ih _ hi.2]
    simp [Image.store, Function.update_noteq hi.1]

theorem applyStores_bytes_of_mem (l : List (Int × Int)) (i v : Int) :
    ∀ im : Image, (l.map Prod.fst).Nodup → (i, v) ∈ l → (applyStores im l).bytes i = v % 256 := by
  induction l with
  | nil => intro im _ h; simp at h
  | cons p l ih =>
    intro im hnd hmem
    rw [List.map_cons, List.nodup_cons] at hnd
    rw [applyStores_cons]
    rcases List.mem_cons.mp hmem with h | h
    · subst h
      rw [applyStores_bytes_of_not_mem _ _ _ hnd.1]
      simp [Image.store]
    · exact ih _ hnd.2 h

theorem applyStores_bytes_perm (l₁ l₂ : List (Int × Int)) (im : Image)
    (hnd : (l₁.map Prod.fst).Nodup) (hp : l₁.Perm l₂) :
    (applyStores im l₁).bytes = (applyStores im l₂).bytes := by
  funext i
  have hnd₂ : (l₂.map Prod.fst).Nodup := ((hp.map Prod.fst).nodup_iff).mp hnd
  by_cases hi : i ∈ l₁.map Prod.fst
  · obtain ⟨p, hp₁, rfl⟩ := List.mem_map.mp hi
    rw [applyStores_bytes_of_mem l₁ p.1 p.2 im hnd hp₁,
      applyStores_bytes_of_mem l₂ p.1 p.2 im hnd₂ (hp.mem_iff.mp hp₁)]
  · have hi₂ : i ∉ l₂.map Prod.fst := fun h => hi (((hp.map Prod.fst).mem_iff).mpr h)
    rw [applyStores_bytes_of_not_mem _ _ _ hi, applyStores_bytes_of_not_mem _ _ _ hi₂]

theorem pixelBody_eq (s : spec) (y x : Int) (im : Image) :
    pixelBody s y x im = applyStores im (pixelStores s y x) := by
  unfold pixelBody pixelStores
  split <;> rfl

theorem rowBody_eq (s : spec) (y : Int) (im : Image) :
    rowBody s y im = applyStores im (rowStores s y) := by
  unfold rowBody forLoop rowStores
  rw [← foldl_applyStores (fun x : ℕ => pixelStores s y (x : Int))]
  simp only [pixelBody_eq]

theorem processRows_eq (s : spec) (rows : List Int) (im : Image) :
    processRows s rows im = applyStores im (rows.flatMap (rowStores s)) := by
  unfold processRows
  rw [← foldl_applyStores (rowStores s)]
  simp only [rowBody_eq]

theorem mandel_basic_eq_processRows (im : Image) (s : spec) :
    mandel_basic im s = processRows s (rowsInOrder s) im := by
  unfold mandel_basic forLoop processRows rowsInOrder
  rw [List.foldl_map]

theorem mandel_basic_eq_applyStores (im : Image) (s : spec) :
    mandel_basic im s = applyStores im ((rowsInOrder s).flatMap (rowStores s)) := by
  rw [mandel_basic_eq_processRows, processRows_eq]

/-- No store of `mandel_basic` goes to an offset outside the range of `int`,
so the bytes there are left as they were. -/
theorem mandel_basic_bytes_outside_int (im : Image) (s : spec) (i : Int)
    (hi : ¬ (-2147483648 ≤ i ∧ i < 2147483648)) :
    (mandel_basic im s).bytes i = im.bytes i := by
  rw [mandel_basic_eq_applyStores]
  apply applyStores_bytes_of_not_mem
  intro hmem
  obtain ⟨p, hp, rfl⟩ := List.mem_map.mp hmem
  obtain ⟨y, _, hpy⟩ := List.mem_flatMap.mp hp
  obtain ⟨x, _, hpx⟩ := List.mem_flatMap.mp hpy
  exact hi (pixelStores_int_range s x y p hpx)

/-! ## The offsets stored to -/

theorem flatMap_pairs_eq_range (a : Int) (n : ℕ) :
    (List.range n).flatMap (fun x : ℕ => [a + (x : Int) * 2 + 0, a + (x : Int) * 2 + 1]) =
      List.map (fun k : ℕ => a + (k : Int)) (List.range (n * 2)) := by
  induction n with
  | zero => rfl
  | succ n ih =>
    have h2 : (n + 1) * 2 = (n * 2 + 1) + 1 := by ring
    rw [List.range_succ, List.flatMap_append, ih, List.flatMap_singleton, h2,
      List.range_succ, List.range_succ]
    simp only [List.map_append, List.map_cons, List.map_nil, List.append_assoc,
      List.singleton_append, add_zero]
    push_cast
    rw [add_assoc a ((n : Int) * 2) 1]

theorem flatMap_singletons_eq_range (a : Int) (n : ℕ) :
    (List.range n).flatMap (fun x : ℕ => [a + (x : Int)]) =
      List.map (fun k : ℕ => a + (k : Int)) (List.range n) := by
  induction n with
  | zero => rfl
  | succ n ih =>
    rw [List.range_succ, List.flatMap_append, ih, List.flatMap_singleton]
    simp

theorem flatMap_blocks_eq_range (m h : ℕ) :
    (List.range h).flatMap
        (fun y : ℕ => List.map (fun k : ℕ => (((y * m + k : ℕ)) : Int)) (List.range m)) =
      List.map (fun k : ℕ => (k : Int)) (List.range (h * m)) := by
  induction h with
  | zero => simp
  | succ h ih =>
    rw [List.range_succ, List.flatMap_append, ih, List.flatMap_singleton, Nat.succ_mul,
      List.range_add, List.map_append, List.map_map]
    rfl

theorem rowStores_offsets (s : spec) (y : Int) (hy0 : 0 ≤ y) (hy : y < s.height)
    (hov : s.width * s.height * bytesPerPixel s < 2 ^ 31) :
    (rowStores s y).map Prod.fst =
      List.map (fun k : ℕ => y * s.width * bytesPerPixel s + (k : Int))
        (List.range (s.width.toNat * (bytesPerPixel s).toNat)) := by
  unfold rowStores
  rw [List.map_flatMap]
  have hcongr : (List.range s.width.toNat).flatMap
        (fun x : ℕ => List.map Prod.fst (pixelStores s y (x : Int))) =
      (List.range s.width.toNat).flatMap
        (fun x : ℕ => List.map Prod.fst
          (if s.depth > 256 then
            [(y * s.width * 2 + (x : Int) * 2 + 0, pixel s x y >>> (8 : ℕ)),
              (y * s.width * 2 + (x : Int) * 2 + 1, pixel s x y)]
          else [(y * s.width + (x : Int), pixel s x y)])) := by
    apply List.flatMap_congr
    intro x hx
    have hx' := List.mem_range.mp hx
    rw [pixelStores_exact s x y (by omega) (by omega) hy0 hy hov]
  rw [hcongr]
  rcases bytesPerPixel_cases s with ⟨hd, hb⟩ | ⟨hd, hb⟩
  · rw [hb]
    simp only [if_pos hd, List.map_cons, List.map_nil]
    exact flatMap_pairs_eq_range (y * s.width * 2) s.width.toNat
  · rw [hb]
    simp only [if_neg hd, List.map_cons, List.map_nil]
    have := flatMap_singletons_eq_range (y * s.width) s.width.toNat
    simpa using this

theorem allStores_offsets (s : spec)
    (hov : s.width * s.height * bytesPerPixel s < 2 ^ 31) :
    ((rowsInOrder s).flatMap (rowStores s)).map Prod.fst =
      List.map (fun k : ℕ => (k : Int))
        (List.range (s.height.toNat * (s.width.toNat * (bytesPerPixel s).toNat))) := by
  rw [List.map_flatMap, rowsInOrder, List.flatMap_map, ← flatMap_blocks_eq_range]
  apply List.flatMap_congr
  intro y hy
  have hy' := List.mem_range.mp hy
  rw [rowStores_offsets s y (by omega) (by omega) hov]
  apply List.map_congr_left
  intro k hk
  have hk' := List.mem_range.mp hk
  have hw : 0 ≤ s.width := by
    by_contra hneg
    have h0 : s.width.toNat = 0 := by omega
    rw [h0] at hk'
    simp at hk'
  have hwc : ((s.width.toNat : ℕ) : Int) = s.width := Int.toNat_of_nonneg hw
  rcases bytesPerPixel_cases s with ⟨_, hb⟩ | ⟨_, hb⟩ <;>
    · rw [hb]
      push_cast
      rw [hwc]
      simp [mul_assoc]

theorem allStores_offsets_nodup (s : spec)
    (hov : s.width * s.height * bytesPerPixel s < 2 ^ 31) :
    (((rowsInOrder s).flatMap (rowStores s)).map Prod.fst).Nodup := by
  rw [allStores_offsets s hov]
  exact (List.nodup_range _).map (fun a b h => by exact_mod_cast h)

/-- The pair `(offset, value)` of each store of a pixel inside the grid is among
the stores of the whole run. -/
theorem pixelStores_subset (s : spec) (x y : Int) (hx0 : 0 ≤ x) (hx : x < s.width)
    (hy0 : 0 ≤ y) (hy : y < s.height) (p : Int × Int) (hp : p ∈ pixelStores s y x) :
    p ∈ (rowsInOrder s).flatMap (rowStores s) := by
  refine List.mem_flatMap.mpr ⟨y, ?_, ?_⟩
  · exact List.mem_map.mpr ⟨y.toNat, List.mem_range.mpr (by omega), Int.toNat_of_nonneg hy0⟩
  · refine List.mem_flatMap.mpr ⟨x.toNat, List.mem_range.mpr (by omega), ?_⟩
    rw [Int.toNat_of_nonneg hx0]
    exact hp

/-- The byte found at the offset of a store of a pixel inside the grid, once
`mandel_basic` is done, is the value of that store modulo 256. -/
theorem mandel_basic_bytes_of_store (im : Image) (s : spec) (x y : Int) (hx0 : 0 ≤ x)
    (hx : x < s.width) (hy0 : 0 ≤ y) (hy : y < s.height)
    (hov : s.width * s.height * bytesPerPixel s < 2 ^ 31) (p : Int × Int)
    (hp : p ∈ pixelStores s y x) : (mandel_basic im s).bytes p.1 = p.2 % 256 := by
  rw [mandel_basic_eq_applyStores]
  exact applyStores_bytes_of_mem _ p.1 p.2 im (allStores_offsets_nodup s hov)
    (pixelStores_subset s x y hx0 hx hy0 hy p hp)

theorem mandel_basic_bytes_eq (im : Image) (s : spec) (x y b : Int) (hx0 : 0 ≤ x)
    (hx : x < s.width) (hy0 : 0 ≤ y) (hy : y < s.height)
    (hov : s.width * s.height * bytesPerPixel s < 2 ^ 31) (hb0 : 0 ≤ b)
    (hb : b < bytesPerPixel s) :
    (mandel_basic im s).bytes ((y * s.width + x) * bytesPerPixel s + b) =
      sampleByte s (pixel s x y) b := by
  have hex := pixelStores_exact s x y hx0 hx hy0 hy hov
  rcases bytesPerPixel_cases s with ⟨hd, hbpp⟩ | ⟨hd, hbpp⟩
  · rw [hbpp] at hb ⊢
    rw [if_pos hd] at hex
    have hb01 : b = 0 ∨ b = 1 := by omega
    rcases hb01 with rfl | rfl
    · have h := mandel_basic_bytes_of_store im s x y hx0 hx hy0 hy hov
        (y * s.width * 2 + x * 2 + 0, pixel s x y >>> (8 : ℕ)) (by rw [hex]; simp)
      have ho : (y * s.width + x) * 2 + 0 = y * s.width * 2 + x * 2 + 0 := by ring
      rw [ho]
      simpa [sampleByte, hd] using h
    · have h := mandel_basic_bytes_of_store im s x y hx0 hx hy0 hy hov
        (y * s.width * 2 + x * 2 + 1, pixel s x y) (by rw [hex]; simp)
      have ho : (y * s.width + x) * 2 + 1 = y * s.width * 2 + x * 2 + 1 := by ring
      rw [ho]
      simpa [sampleByte, hd] using h
  · rw [hbpp] at hb ⊢
    rw [if_neg hd] at hex
    have hb0' : b = 0 := by omega
    subst hb0'
    have h := mandel_basic_bytes_of_store im s x y hx0 hx hy0 hy hov
      (y * s.width + x, pixel s x y) (by rw [hex]; simp)
    have ho : (y * s.width + x) * 1 + 0 = y * s.width + x := by ring
    rw [ho]
    simpa [sampleByte, hd] using h

theorem mem_rowStores_offsets (s : spec) (y i : Int) (hy0 : 0 ≤ y) (hy : y < s.height)
    (hov : s.width * s.height * bytesPerPixel s < 2 ^ 31)
    (hi : i ∈ (rowStores s y).map Prod.fst) :
    y * s.width * bytesPerPixel s ≤ i ∧ i < (y + 1) * s.width * bytesPerPixel s := by
  rw [rowStores_offsets s y hy0 hy hov] at hi
  obtain ⟨k, hk, rfl⟩ := List.mem_map.mp hi
  have hk' := List.mem_range.mp hk
  have hw : 0 ≤ s.width := by
    by_contra hneg
    have h0 : s.width.toNat = 0 := by omega
    rw [h0] at hk'
    simp at hk'
  have hwc : ((s.width.toNat : ℕ) : Int) = s.width := Int.toNat_of_nonneg hw
  have hkc : (k : Int) < s.width * bytesPerPixel s := by
    have h1 : (1 : Int).toNat = 1 := rfl
    have h2 : (2 : Int).toNat = 2 := rfl
    rcases bytesPerPixel_cases s with ⟨_, hb⟩ | ⟨_, hb⟩
    · rw [hb, h2] at hk'
      rw [hb]
      omega
    · rw [hb, h1] at hk'
      rw [hb]
      omega
  have hexp : (y + 1) * s.width * bytesPerPixel s =
      y * s.width * bytesPerPixel s + s.width * bytesPerPixel s := by ring
  rw [hexp]
  omega

theorem row_ranges_disjoint (s : spec) (hw : 0 < s.width) (y y' i : Int) (hne : y' ≠ y)
    (h : y * s.width * bytesPerPixel s ≤ i ∧ i < (y + 1) * s.width * bytesPerPixel s)
    (h' : y' * s.width * bytesPerPixel s ≤ i ∧ i < (y' + 1) * s.width * bytesPerPixel s) :
    False := by
  have hW : 0 < s.width * bytesPerPixel s := by
    rcases bytesPerPixel_cases s with ⟨_, hb⟩ | ⟨_, hb⟩ <;> rw [hb] <;> omega
  rcases lt_or_gt_of_ne hne with hlt | hgt
  · have hle : (y' + 1) * (s.width * bytesPerPixel s) ≤ y * (s.width * bytesPerPixel s) :=
      mul_le_mul_of_nonneg_right (by omega) hW.le
    rw [← mul_assoc, ← mul_assoc] at hle
    omega
  · have hle : (y + 1) * (s.width * bytesPerPixel s) ≤ y' * (s.width * bytesPerPixel s) :=
      mul_le_mul_of_nonneg_right (by omega) hW.le
    rw [← mul_assoc, ← mul_assoc] at hle
    omega

/-! ## The exact orbit on fractions -/

theorem fracOrbit_den_pos (p r q : Int) (hq : 0 < q) (n : ℕ) : 0 < (fracOrbit p r q n).2.2 := by
  induction n with
  | zero => exact hq
  | succ n ih =>
    unfold fracOrbit at ih ⊢
    rw [Function.iterate_succ_apply']
    simp only [fracStep]
    positivity

theorem refOrbitQ_eq_fracOrbit (p r q : Int) (hq : 0 < q) (n : ℕ) :
    refOrbitQ ((p : ℚ) / q) ((r : ℚ) / q) n =
      (((fracOrbit p r q n).1 : ℚ) / (fracOrbit p r q n).2.2,
        ((fracOrbit p r q n).2.1 : ℚ) / (fracOrbit p r q n).2.2) := by
  induction n with
  | zero => rfl
  | succ n ih =>
    have hd := fracOrbit_den_pos p r q hq n
    have hq' : (q : ℚ) ≠ 0 := by exact_mod_cast hq.ne'
    unfold refOrbitQ fracOrbit at ih hd ⊢
    rw [Function.iterate_succ_apply', Function.iterate_succ_apply', ih]
    generalize (fracStep p r q)^[n] (p, r, q) = t at hd
    obtain ⟨a, b, d⟩ := t
    have hd' : (d : ℚ) ≠ 0 := by
      have : d ≠ 0 := hd.ne'
      exact_mod_cast this
    simp only [refStepQ, fracStep]
    ext
    · push_cast
      field_simp
      ring
    · push_cast
      field_simp

theorem normSqQ_lt_four_iff (p r q : Int) (hq : 0 < q) (n : ℕ) :
    normSqQ (refOrbitQ ((p : ℚ) / q) ((r : ℚ) / q) n) < 4 ↔
      (fracOrbit p r q n).1 ^ 2 + (fracOrbit p r q n).2.1 ^ 2 <
        4 * (fracOrbit p r q n).2.2 ^ 2 := by
  have hd := fracOrbit_den_pos p r q hq n
  have hd' : (0 : ℚ) < ((fracOrbit p r q n).2.2 : ℚ) := by exact_mod_cast hd
  rw [refOrbitQ_eq_fracOrbit p r q hq n]
  simp only [normSqQ]
  rw [div_pow, div_pow, ← add_div, div_lt_iff₀ (by positivity)]
  exact_mod_cast Iff.rfl

/-! ## Concrete renders -/

/-- Two pixels of the 11 by 29 render with 16 iterations, and two of the
default 1440 by 1080 render with 256 iterations, that lie in rows `y` and
`height - y` and get different values: `yscale = 3 / height` is rounded, so the
two rows are not sampled at opposite imaginary parts. -/
theorem rows_not_symmetric_for_other_heights :
    pixel (canonical 11 29 16) 4 11 = 12 ∧ pixel (canonical 11 29 16) 4 (29 - 11) = 11 ∧
    pixel (canonical 1440 1080 256) 853 185 = 44 ∧
    pixel (canonical 1440 1080 256) 853 (1080 - 185) = 45 := by
  unfold pixel
  simp only [escapeCount_eq]
  decide!

/-- The range test of `main` lets the render proceed exactly when
`0 <= iterations < 65536`. -/
theorem main_validate_ok_iff (s : spec) :
    (∃ s1, main_validate s = Except.ok s1) ↔ 0 ≤ s.iterations ∧ s.iterations < 65536 := by
  unfold main_validate
  by_cases h : s.iterations < 0 ∨ s.iterations ≥ 65536
  · have hc : ¬ (0 ≤ s.iterations ∧ s.iterations < 65536) := by omega
    simp [h, hc]
  · have hc : 0 ≤ s.iterations ∧ s.iterations < 65536 := by omega
    simp [h, hc]

/-! ## The claims -/

/-- Counterexample to claim C1: for the pixel `(4, 11)` of the 11 by 29 render
with 16 iterations the code computes the value 12, while the reference escape
time of the claim is 11, whether its formulas are evaluated in binary32 or in
exact rationals: the orbit of the reference point stays inside the escape radius
for `n <= 10` and is outside it at `n = 11`. -/
theorem reference_escape_time_counterexample :
    pixel (canonical 11 29 16) 4 11 = 12 ∧
    (∀ n : Fin 11, refEscaped
      (refOrbit (ref_cr (canonical 11 29 16) 4) (ref_ci (canonical 11 29 16) 11) n) = false) ∧
    refEscaped
      (refOrbit (ref_cr (canonical 11 29 16) 4) (ref_ci (canonical 11 29 16) 11) 11) = true ∧
    (∀ n : Fin 11, normSqQ
      (refOrbitQ (ref_crQ (canonical 11 29 16) 4) (ref_ciQ (canonical 11 29 16) 11) n) < 4) ∧
    4 ≤ normSqQ
      (refOrbitQ (ref_crQ (canonical 11 29 16) 4) (ref_ciQ (canonical 11 29 16) 11) 11) := by
  have e1 : (-1 + 149 : Int).toNat = 148 := rfl
  have hcr : ref_crQ (canonical 11 29 16) 4 = ((-667 : Int) : ℚ) / ((638 : Int) : ℚ) := by
    simp only [ref_crQ, canonical, initialSpec, dyadic, toRat, e1]
    norm_num
  have hci : ref_ciQ (canonical 11 29 16) 11 = ((-231 : Int) : ℚ) / ((638 : Int) : ℚ) := by
    simp only [ref_ciQ, canonical, initialSpec, dyadic, toRat, e1]
    norm_num
  have hfrac : (∀ n : Fin 11,
      (fracOrbit (-667) (-231) 638 n).1 ^ 2 + (fracOrbit (-667) (-231) 638 n).2.1 ^ 2 <
        4 * (fracOrbit (-667) (-231) 638 n).2.2 ^ 2) ∧
      ¬ ((fracOrbit (-667) (-231) 638 11).1 ^ 2 + (fracOrbit (-667) (-231) 638 11).2.1 ^ 2 <
        4 * (fracOrbit (-667) (-231) 638 11).2.2 ^ 2) := by
    decide!
  refine ⟨?_, ?_, ?_, ?_, ?_⟩
  · unfold pixel
    rw [escapeCount_eq]
    decide!
  · decide!
  · decide!
  · intro n
    rw [hcr, hci, normSqQ_lt_four_iff (-667) (-231) 638 (by norm_num) n]
    exact hfrac.1 n
  · rw [hcr, hci]
    exact not_lt.mp (fun h =>
      hfrac.2 ((normSqQ_lt_four_iff (-667) (-231) 638 (by norm_num) 11).mp h))

/-- Claim C1, amended: for a spec with positive dimensions and
`1 <= iterations <= 2^24 + 1`, the value `mandel_basic` computes for a pixel
`(x, y)` of the grid is the escape time of the orbit the code computes in
binary32: with `cr = x * xscale + xlim.lo`, `ci = y * yscale + ylim.lo`,
`z_0 = (cr, ci)` and `z_{n+1} = (zr_n*zr_n - zi_n*zi_n + cr,
zr_n*zi_n + zr_n*zi_n + ci)`, when some `n` with `1 <= n <= iterations - 1`
passes the test `zr_n*zr_n + zi_n*zi_n >= 4.0f` the value is the least such
`n`, and when there is none it is `iterations - 1`. -/
theorem pixel_eq_orbit_escape_time (s : spec) (x y : Int)
    (_hw : 0 < s.width) (_hh : 0 < s.height) (hit : 1 ≤ s.iterations)
    (hmax : s.iterations ≤ 2 ^ 24 + 1)
    (_hx0 : 0 ≤ x) (_hx : x < s.width) (_hy0 : 0 ≤ y) (_hy : y < s.height) :
    ((∃ n : ℕ, 1 ≤ n ∧ (n : Int) ≤ s.iterations - 1 ∧
        escaped (orbit (pixel_cr s x) (pixel_ci s y) n) = true) →
      ∃ n : ℕ, pixel s x y = (n : Int) ∧ 1 ≤ n ∧ (n : Int) ≤ s.iterations - 1 ∧
        escaped (orbit (pixel_cr s x) (pixel_ci s y) n) = true ∧
        ∀ m : ℕ, 1 ≤ m → m < n → escaped (orbit (pixel_cr s x) (pixel_ci s y) m) = false) ∧
    ((∀ n : ℕ, 1 ≤ n → (n : Int) ≤ s.iterations - 1 →
        escaped (orbit (pixel_cr s x) (pixel_ci s y) n) = false) →
      pixel s x y = s.iterations - 1) :=
  escapeCount_orbit s.iterations (pixel_cr s x) (pixel_ci s y) hit hmax

/-- Witness of claim C1, amended: the pixel `(2, 3)` of the 4 by 4 canonical
spec with 3 iterations. -/
theorem pixel_eq_orbit_escape_time_witness :
    ((∃ n : ℕ, 1 ≤ n ∧ (n : Int) ≤ (canonical 4 4 3).iterations - 1 ∧
        escaped (orbit (pixel_cr (canonical 4 4 3) 2) (pixel_ci (canonical 4 4 3) 3) n) = true) →
      ∃ n : ℕ, pixel (canonical 4 4 3) 2 3 = (n : Int) ∧ 1 ≤ n ∧
        (n : Int) ≤ (canonical 4 4 3).iterations - 1 ∧
        escaped (orbit (pixel_cr (canonical 4 4 3) 2) (pixel_ci (canonical 4 4 3) 3) n) = true ∧
        ∀ m : ℕ, 1 ≤ m → m < n →
          escaped (orbit (pixel_cr (canonical 4 4 3) 2) (pixel_ci (canonical 4 4 3) 3) m) =
            false) ∧
    ((∀ n : ℕ, 1 ≤ n → (n : Int) ≤ (canonical 4 4 3).iterations - 1 →
        escaped (orbit (pixel_cr (canonical 4 4 3) 2) (pixel_ci (canonical 4 4 3) 3) n) = false) →
      pixel (canonical 4 4 3) 2 3 = (canonical 4 4 3).iterations - 1) :=
  pixel_eq_orbit_escape_time (canonical 4 4 3) 2 3 (by decide) (by decide) (by decide)
    (by decide) (by decide) (by decide) (by decide) (by decide)

/-- Claim C2: for a spec with `iterations >= 1`, the escape count `pixel` of
every pixel lies in the closed range from 0 to `iterations - 1`, whatever the
plane bounds and the pixel are. -/
theorem pixel_in_range (s : spec) (x y : Int) (hit : 1 ≤ s.iterations) :
    0 ≤ pixel s x y ∧ pixel s x y ≤ s.iterations - 1 :=
  escapeCount_bounds s.iterations (pixel_cr s x) (pixel_ci s y) hit

/-- Witness of claim C2: the pixel `(2, 3)` of the 4 by 4 canonical spec with
3 iterations. -/
theorem pixel_in_range_witness :
    0 ≤ pixel (canonical 4 4 3) 2 3 ∧
      pixel (canonical 4 4 3) 2 3 ≤ (canonical 4 4 3).iterations - 1 :=
  pixel_in_range (canonical 4 4 3) 2 3 (by decide)

/-- Claim C3, evaluated at `iterations = 0`: the range test of `main` lets the
value 0 through, and `main` goes on to call the scalar backend with
`depth = 0` and a buffer of `1440 * 1080` bytes. -/
theorem main_accepts_zero_iterations (ecx : Nat) :
    main_validate { initialSpec with iterations := 0 } =
        Except.ok { initialSpec with iterations := 0, depth := 0 } ∧
      main_x86_64 { initialSpec with iterations := 0 } 1 1 ecx =
        Except.ok (Backend.basic, { initialSpec with iterations := 0, depth := 0 },
          1440 * 1080) := by
  constructor
  · rfl
  · simp [main_x86_64, main_validate, main_backend_x86_64, main_nbytes, initialSpec, imul,
      wrapInt]

/-- Counterexample to claim C6: with `use_avx` set and a processor that reports
AVX, `main` calls the scalar backend, not `mandel_avx`; with AVX unavailable
and `use_sse2` set it calls the scalar backend as well, not `mandel_sse2`. -/
theorem backend_priority_counterexample :
    is_avx_supported 0x10000000 = 1 ∧
      main_backend_x86_64 1 1 0x10000000 ≠ Backend.avx ∧
      is_avx_supported 0 = 0 ∧
      main_backend_x86_64 1 1 0 ≠ Backend.sse2 := by
  decide

/-- Claim C6, amended: on x86_64 the two vector branches of `main` are guarded
by the constant `0`, so for every value of `use_avx`, of `use_sse2` and of the
processor's feature word the backend `main` calls is `mandel_basic`. -/
theorem backend_is_always_basic (use_avx use_sse2 : Int) (ecx : Nat) :
    main_backend_x86_64 use_avx use_sse2 ecx = Backend.basic := by
  simp [main_backend_x86_64]

/-- Claim C10: for every iteration limit and every plane point `(cr, ci)`, the
escape count of the inner loop started from `(cr, -ci)` equals the one started
from `(cr, ci)`; after any number of updates the two orbits have equal real
parts and opposite imaginary parts, and so have the points the two loops are
left with. -/
theorem escapeCount_conjugation (iterations : Int) (cr ci : F32) :
    escapeCount iterations cr (-ci) = escapeCount iterations cr ci ∧
    (∀ n : ℕ,
      ((mandelStep cr (-ci))^[n] (cr, -ci)).1 = ((mandelStep cr ci)^[n] (cr, ci)).1 ∧
      ((mandelStep cr (-ci))^[n] (cr, -ci)).2 = -((mandelStep cr ci)^[n] (cr, ci)).2) ∧
    (innerLoop iterations cr (-ci)).zr = (innerLoop iterations cr ci).zr ∧
    (innerLoop iterations cr (-ci)).zi = -(innerLoop iterations cr ci).zi ∧
    (innerLoop iterations cr (-ci)).mk = (innerLoop iterations cr ci).mk := by
  have hit : ∀ n : ℕ, (mandelStep cr (-ci))^[n] (cr, -ci) =
      conj ((mandelStep cr ci)^[n] (cr, ci)) := fun n => iterate_conj cr ci n (cr, ci)
  have hend := loopEnd_conj cr ci (iterations - 1).toNat (cr, ci)
  have hcnt := escSteps_conj cr ci (iterations - 1).toNat (cr, ci)
  simp only [conj] at hend hcnt
  refine ⟨escapeCount_conj iterations cr ci, fun n => ?_, ?_, ?_, ?_⟩
  · rw [hit n]
    exact ⟨rfl, rfl⟩
  · rw [innerLoop_eq, innerLoop_eq, hend]
  · rw [innerLoop_eq, innerLoop_eq, hend]
  · rw [innerLoop_eq, innerLoop_eq, hcnt]

/-- Counterexample to claim C4: the 40000 by 40000 render with 300 iterations
passes the checks of `main`, which allocates 3200000000 bytes for it; for its
pixel `(0, 30000)`, of value 1, the index `y*width*2 + x*2` is 2400000000,
which does not fit an `int`: the two bytes are stored at the offsets
-1894967296 and -1894967295, and the bytes at the offsets 2400000000 and
2400000001 of a buffer that held zeros still decode to 0. -/
theorem two_byte_round_trip_counterexample :
    256 < (canonical 40000 40000 300).depth ∧
    (canonical 40000 40000 300).depth = (canonical 40000 40000 300).iterations ∧
    (canonical 40000 40000 300).iterations < 65536 ∧
    (∃ s1, main_validate (canonical 40000 40000 300) = Except.ok s1) ∧
    main_nbytes (canonical 40000 40000 300) = 3200000000 ∧
    pixel (canonical 40000 40000 300) 0 30000 = 1 ∧
    (∀ im : Image, (pixelBody (canonical 40000 40000 300) 30000 0 im).written =
      -1894967295 :: -1894967296 :: im.written) ∧
    256 * (mandel_basic { bytes := fun _ => 0, written := [] }
          (canonical 40000 40000 300)).bytes ((30000 * 40000 + 0) * 2) +
        (mandel_basic { bytes := fun _ => 0, written := [] }
          (canonical 40000 40000 300)).bytes ((30000 * 40000 + 0) * 2 + 1) = 0 := by
  refine ⟨by decide, rfl, by decide, ?_, by decide, ?_, ?_, ?_⟩
  · exact (main_validate_ok_iff _).mpr ⟨by decide, by decide⟩
  · unfold pixel
    rw [escapeCount_eq]
    decide!
  · intro im
    have hd : (canonical 40000 40000 300).depth > 256 := by decide
    have h0 : iadd (iadd (imul (imul 30000 (canonical 40000 40000 300).width) 2) (imul 0 2)) 0 =
        -1894967296 := by decide
    have h1 : iadd (iadd (imul (imul 30000 (canonical 40000 40000 300).width) 2) (imul 0 2)) 1 =
        -1894967295 := by decide
    unfold pixelBody
    rw [if_pos hd, h0, h1]
    rfl
  · have e0 : ((30000 : Int) * 40000 + 0) * 2 = 2400000000 := by norm_num
    have e1 : (2400000000 : Int) + 1 = 2400000001 := by norm_num
    rw [e0, e1, mandel_basic_bytes_outside_int _ _ 2400000000 (by omega),
      mandel_basic_bytes_outside_int _ _ 2400000001 (by omega)]
    rfl

/-- Claim C4, amended: for a spec with `256 < depth = iterations < 65536` whose
`width*height*2` fits an `int`, and a pixel `(x, y)` of the grid, the two bytes
found at the offsets `(y*width + x)*2` and `(y*width + x)*2 + 1` once
`mandel_basic` is done decode big-endian to the escape count of the pixel. -/
theorem two_byte_round_trip (im : Image) (s : spec) (x y : Int)
    (hd : 256 < s.depth) (hdi : s.depth = s.iterations) (hit : s.iterations < 65536)
    (hov : s.width * s.height * 2 < 2 ^ 31)
    (hx0 : 0 ≤ x) (hx : x < s.width) (hy0 : 0 ≤ y) (hy : y < s.height) :
    256 * (mandel_basic im s).bytes ((y * s.width + x) * 2) +
        (mandel_basic im s).bytes ((y * s.width + x) * 2 + 1) = pixel s x y := by
  have hbpp : bytesPerPixel s = 2 := by simp [bytesPerPixel, hd]
  have hov' : s.width * s.height * bytesPerPixel s < 2 ^ 31 := by rw [hbpp]; exact hov
  have h0 := mandel_basic_bytes_eq im s x y 0 hx0 hx hy0 hy hov' le_rfl (by rw [hbpp]; decide)
  have h1 := mandel_basic_bytes_eq im s x y 1 hx0 hx hy0 hy hov' (by decide)
    (by rw [hbpp]; decide)
  rw [hbpp] at h0 h1
  rw [add_zero] at h0
  rw [h0, h1]
  have hr : 0 ≤ pixel s x y ∧ pixel s x y ≤ s.iterations - 1 :=
    escapeCount_bounds s.iterations (pixel_cr s x) (pixel_ci s y) (by omega)
  have hgt : s.depth > 256 := hd
  have hs : pixel s x y >>> (8 : ℕ) = pixel s x y / 256 := by
    rw [Int.shiftRight_eq_div_pow]
    norm_num
  simp only [sampleByte, hgt, if_true, one_ne_zero, if_false, hs]
  omega

/-- Witness of claim C4, amended: the pixel `(2, 3)` of the 4 by 4 canonical
spec with 300 iterations. -/
theorem two_byte_round_trip_witness :
    256 * (mandel_basic { bytes := fun _ => 0, written := [] } (canonical 4 4 300)).bytes
          ((3 * (canonical 4 4 300).width + 2) * 2) +
        (mandel_basic { bytes := fun _ => 0, written := [] } (canonical 4 4 300)).bytes
          ((3 * (canonical 4 4 300).width + 2) * 2 + 1) = pixel (canonical 4 4 300) 2 3 :=
  two_byte_round_trip { bytes := fun _ => 0, written := [] } (canonical 4 4 300) 2 3
    (by decide) rfl (by decide) (by decide) (by decide) (by decide) (by decide) (by decide)

/-- Counterexample to claim C9: in the 40000 by 40000 render with 300
iterations, the body of the outer loop for row 30000 stores to the offset
-1894967296, which is outside the range from `y*width*bytesPerPixel` up to
`(y+1)*width*bytesPerPixel` of that row: the index `y*width*2` is 2400000000 and
does not fit an `int`. -/
theorem row_partitioning_counterexample :
    0 < (canonical 40000 40000 300).width ∧ (0 : Int) ≤ 30000 ∧
    30000 < (canonical 40000 40000 300).height ∧
    ∀ im : Image,
      -1894967296 ∈ (rowBody (canonical 40000 40000 300) 30000 im).written ∧
      ¬ (30000 * (canonical 40000 40000 300).width * bytesPerPixel (canonical 40000 40000 300) ≤
          -1894967296 ∧
        -1894967296 < (30000 + 1) * (canonical 40000 40000 300).width *
          bytesPerPixel (canonical 40000 40000 300)) := by
  refine ⟨by decide, by decide, by decide, fun im => ⟨?_, by decide⟩⟩
  rw [rowBody_eq, applyStores_written]
  apply List.mem_append_left
  rw [List.mem_reverse]
  have hd : (canonical 40000 40000 300).depth > 256 := by decide
  have h0 : iadd (iadd (imul (imul 30000 (canonical 40000 40000 300).width) 2)
      (imul ((0 : ℕ) : Int) 2)) 0 = -1894967296 := by decide
  refine List.mem_map.mpr ⟨(-1894967296, pixel (canonical 40000 40000 300) ((0 : ℕ) : Int) 30000
    >>> (8 : ℕ)), ?_, rfl⟩
  refine List.mem_flatMap.mpr ⟨0, List.mem_range.mpr (by decide), ?_⟩
  unfold pixelStores
  rw [if_pos hd, h0]
  exact List.mem_cons_self _ _

/-- Claim C9, amended: for a spec with `width > 0` whose
`width*height*bytesPerPixel` fits an `int`, and a row `y` of the grid, the body
of the outer loop stores only to offsets from `y*width*bytesPerPixel` up to
`(y+1)*width*bytesPerPixel` and leaves every byte outside that range as it was;
the ranges of two distinct rows have no offset in common; and processing the
rows in any order gives the bytes that `mandel_basic` gives. -/
theorem row_partitioning (s : spec) (y : Int) (hw : 0 < s.width)
    (hov : s.width * s.height * bytesPerPixel s < 2 ^ 31) (hy0 : 0 ≤ y)
    (hy : y < s.height) :
    (∀ im : Image, ∃ l : List Int, (rowBody s y im).written = l ++ im.written ∧
      ∀ i ∈ l, y * s.width * bytesPerPixel s ≤ i ∧ i < (y + 1) * s.width * bytesPerPixel s) ∧
    (∀ (im : Image) (i : Int),
      ¬ (y * s.width * bytesPerPixel s ≤ i ∧ i < (y + 1) * s.width * bytesPerPixel s) →
      (rowBody s y im).bytes i = im.bytes i) ∧
    (∀ y' i : Int, y' ≠ y →
      ¬ ((y * s.width * bytesPerPixel s ≤ i ∧ i < (y + 1) * s.width * bytesPerPixel s) ∧
        (y' * s.width * bytesPerPixel s ≤ i ∧ i < (y' + 1) * s.width * bytesPerPixel s))) ∧
    (∀ (im : Image) (rows : List Int), rows.Perm (rowsInOrder s) →
      (processRows s rows im).bytes = (mandel_basic im s).bytes) := by
  refine ⟨fun im => ?_, fun im i hi => ?_, fun y' i hne h => ?_, fun im rows hp => ?_⟩
  · refine ⟨((rowStores s y).map Prod.fst).reverse, ?_, fun i hi => ?_⟩
    · rw [rowBody_eq, applyStores_written]
    · exact mem_rowStores_offsets s y i hy0 hy hov (List.mem_reverse.mp hi)
  · rw [rowBody_eq]
    exact applyStores_bytes_of_not_mem _ i im
      fun hmem => hi (mem_rowStores_offsets s y i hy0 hy hov hmem)
  · exact row_ranges_disjoint s hw y y' i hne h.1 h.2
  · rw [mandel_basic_eq_applyStores, processRows_eq]
    exact (applyStores_bytes_perm _ _ im (allStores_offsets_nodup s hov)
      (hp.symm.flatMap_right (rowStores s))).symm

/-- Witness of claim C9, amended: row 3 of the 4 by 4 canonical spec with 300
iterations. -/
theorem row_partitioning_witness :
    (∀ im : Image, ∃ l : List Int,
      (rowBody (canonical 4 4 300) 3 im).written = l ++ im.written ∧
      ∀ i ∈ l, 3 * (canonical 4 4 300).width * bytesPerPixel (canonical 4 4 300) ≤ i ∧
        i < (3 + 1) * (canonical 4 4 300).width * bytesPerPixel (canonical 4 4 300)) ∧
    (∀ (im : Image) (i : Int),
      ¬ (3 * (canonical 4 4 300).width * bytesPerPixel (canonical 4 4 300) ≤ i ∧
        i < (3 + 1) * (canonical 4 4 300).width * bytesPerPixel (canonical 4 4 300)) →
      (rowBody (canonical 4 4 300) 3 im).bytes i = im.bytes i) ∧
    (∀ y' i : Int, y' ≠ 3 →
      ¬ ((3 * (canonical 4 4 300).width * bytesPerPixel (canonical 4 4 300) ≤ i ∧
          i < (3 + 1) * (canonical 4 4 300).width * bytesPerPixel (canonical 4 4 300)) ∧
        (y' * (canonical 4 4 300).width * bytesPerPixel (canonical 4 4 300) ≤ i ∧
          i < (y' + 1) * (canonical 4 4 300).width * bytesPerPixel (canonical 4 4 300)))) ∧
    (∀ (im : Image) (rows : List Int), rows.Perm (rowsInOrder (canonical 4 4 300)) →
      (processRows (canonical 4 4 300) rows im).bytes =
        (mandel_basic im (canonical 4 4 300)).bytes) :=
  row_partitioning (canonical 4 4 300) 3 (by decide) (by decide) (by decide) (by decide)

/-- Counterexample to claim C7: in the 4 by 4 canonical spec with 3 iterations,
pixel `(2, 0)` has the value 1 and its mirror image about the horizontal
midline, pixel `(2, 3)`, has the value 2; the bytes of the rendered image at the
two places differ in the same way. -/
theorem midline_symmetry_counterexample :
    (canonical 4 4 3).xlim = (dyadic (-5) (-1), dyadic 3 (-1)) ∧
    (canonical 4 4 3).ylim = (dyadic (-3) (-1), dyadic 3 (-1)) ∧
    pixel (canonical 4 4 3) 2 0 = 1 ∧
    pixel (canonical 4 4 3) 2 ((canonical 4 4 3).height - 1 - 0) = 2 ∧
    ∀ im : Image,
      (mandel_basic im (canonical 4 4 3)).bytes (0 * 4 + 2) = 1 ∧
      (mandel_basic im (canonical 4 4 3)).bytes (((canonical 4 4 3).height - 1 - 0) * 4 + 2) =
        2 := by
  have h0 : pixel (canonical 4 4 3) 2 0 = 1 := by
    unfold pixel
    rw [escapeCount_eq]
    decide!
  have h3 : pixel (canonical 4 4 3) 2 3 = 2 := by
    unfold pixel
    rw [escapeCount_eq]
    decide!
  have hb : bytesPerPixel (canonical 4 4 3) = 1 := by decide
  refine ⟨rfl, rfl, h0, h3, fun im => ⟨?_, ?_⟩⟩
  · have h := mandel_basic_bytes_eq im (canonical 4 4 3) 2 0 0 (by decide) (by decide)
      (by decide) (by decide) (by decide) (by decide) (by decide)
    rw [h0, hb] at h
    exact h
  · have h := mandel_basic_bytes_eq im (canonical 4 4 3) 2 3 0 (by decide) (by decide)
      (by decide) (by decide) (by decide) (by decide) (by decide)
    rw [h3, hb] at h
    exact h

/-- Claim C7, amended: for the canonical plane bounds `xlim = [-2.5, 1.5]`,
`ylim = [-1.5, 1.5]`, a width above 0, a height that is a power of two `2^k`
with `k <= 22` and `iterations >= 1`, the image is symmetric about the row of
the real axis: for every pixel `(x, y)` with `1 <= y < height`, the value at
`(x, height - y)` equals the value at `(x, y)`, and when
`width*height*bytesPerPixel` fits an `int` so do the bytes of the two pixels in
the rendered image. -/
theorem real_axis_symmetry (s : spec) (k : ℕ) (x y : Int)
    (_hxl : s.xlim = (dyadic (-5) (-1), dyadic 3 (-1)))
    (hyl : s.ylim = (dyadic (-3) (-1), dyadic 3 (-1)))
    (_hw : 0 < s.width) (hh : s.height = 2 ^ k) (hk : k ≤ 22) (_hit : 1 ≤ s.iterations)
    (hx0 : 0 ≤ x) (hx : x < s.width) (hy1 : 1 ≤ y) (hy : y < s.height) :
    pixel s x (s.height - y) = pixel s x y ∧
    (s.width * s.height * bytesPerPixel s < 2 ^ 31 →
      ∀ (im : Image) (b : Int), 0 ≤ b → b < bytesPerPixel s →
        (mandel_basic im s).bytes (((s.height - y) * s.width + x) * bytesPerPixel s + b) =
          (mandel_basic im s).bytes ((y * s.width + x) * bytesPerPixel s + b)) := by
  have hk1 : 1 ≤ k := by
    by_contra hlt
    have h0 : k = 0 := by omega
    rw [h0] at hh
    norm_num at hh
    omega
  have hp : pixel s x (s.height - y) = pixel s x y := by
    unfold pixel
    rw [pixel_ci_reflect s k hk1 hk hyl hh y (by omega) hy.le, escapeCount_conj]
  refine ⟨hp, fun hov im b hb0 hb => ?_⟩
  rw [mandel_basic_bytes_eq im s x (s.height - y) b hx0 hx (by omega) (by omega) hov hb0 hb,
    mandel_basic_bytes_eq im s x y b hx0 hx (by omega) hy hov hb0 hb, hp]

/-- Witness of claim C7, amended: the pixel `(2, 1)` of the 4 by 4 canonical
spec with 3 iterations. -/
theorem real_axis_symmetry_witness :
    pixel (canonical 4 4 3) 2 ((canonical 4 4 3).height - 1) = pixel (canonical 4 4 3) 2 1 ∧
    ((canonical 4 4 3).width * (canonical 4 4 3).height * bytesPerPixel (canonical 4 4 3) <
        2 ^ 31 →
      ∀ (im : Image) (b : Int), 0 ≤ b → b < bytesPerPixel (canonical 4 4 3) →
        (mandel_basic im (canonical 4 4 3)).bytes
            ((((canonical 4 4 3).height - 1) * (canonical 4 4 3).width + 2) *
              bytesPerPixel (canonical 4 4 3) + b) =
          (mandel_basic im (canonical 4 4 3)).bytes
            ((1 * (canonical 4 4 3).width + 2) * bytesPerPixel (canonical 4 4 3) + b)) :=
  real_axis_symmetry (canonical 4 4 3) 2 2 1 rfl rfl (by decide) (by decide) (by decide)
    (by decide) (by decide) (by decide) (by decide) (by decide)

/-- Claim C8: in the spec `width = 4`, `height = 4`, `iterations = 50`,
`xlim = [-2.5, 1.5]`, `ylim = [-1.5, 1.5]`, pixel `(0, 0)` is the point
`-2.5 - 1.5i` and gets a value below 5 (the value 1); pixel `(2, 2)` is the
point `-0.5 + 0i`, no pixel of the grid is closer to the origin, and it gets
the value `iterations - 1 = 49`; the rendered image holds these values at the
offsets of the two pixels. -/
theorem scenario_4_4_50 :
    pixel_cr (canonical 4 4 50) 0 = dyadic (-5) (-1) ∧
    toRat (pixel_cr (canonical 4 4 50) 0) = -5 / 2 ∧
    pixel_ci (canonical 4 4 50) 0 = dyadic (-3) (-1) ∧
    toRat (pixel_ci (canonical 4 4 50) 0) = -3 / 2 ∧
    pixel (canonical 4 4 50) 0 0 = 1 ∧ pixel (canonical 4 4 50) 0 0 < 5 ∧
    pixel_cr (canonical 4 4 50) 2 = dyadic (-1) (-1) ∧
    toRat (pixel_cr (canonical 4 4 50) 2) = -1 / 2 ∧
    pixel_ci (canonical 4 4 50) 2 = fin 0 ∧
    toRat (pixel_ci (canonical 4 4 50) 2) = 0 ∧
    (∀ x y : Int, 0 ≤ x → x < 4 → 0 ≤ y → y < 4 →
      (∃ a b : Int, pixel_cr (canonical 4 4 50) x = fin a ∧
        pixel_ci (canonical 4 4 50) y = fin b) ∧
      toRat (pixel_cr (canonical 4 4 50) 2) ^ 2 + toRat (pixel_ci (canonical 4 4 50) 2) ^ 2 ≤
        toRat (pixel_cr (canonical 4 4 50) x) ^ 2 +
          toRat (pixel_ci (canonical 4 4 50) y) ^ 2) ∧
    pixel (canonical 4 4 50) 2 2 = 49 ∧
    pixel (canonical 4 4 50) 2 2 = (canonical 4 4 50).iterations - 1 ∧
    ∀ im : Image,
      (mandel_basic im (canonical 4 4 50)).bytes (0 * 4 + 0) = 1 ∧
      (mandel_basic im (canonical 4 4 50)).bytes (2 * 4 + 2) = 49 := by
  have hx0 : pixel_cr (canonical 4 4 50) 0 = fin (-5 * 2 ^ 148) := by decide!
  have hx1 : pixel_cr (canonical 4 4 50) 1 = fin (-3 * 2 ^ 148) := by decide!
  have hx2 : pixel_cr (canonical 4 4 50) 2 = fin (-1 * 2 ^ 148) := by decide!
  have hx3 : pixel_cr (canonical 4 4 50) 3 = fin (1 * 2 ^ 148) := by decide!
  have hy0 : pixel_ci (canonical 4 4 50) 0 = fin (-3 * 2 ^ 148) := by decide!
  have hy1 : pixel_ci (canonical 4 4 50) 1 = fin (-3 * 2 ^ 147) := by decide!
  have hy3 : pixel_ci (canonical 4 4 50) 3 = fin (3 * 2 ^ 147) := by decide!
  have hcr0 : pixel_cr (canonical 4 4 50) 0 = dyadic (-5) (-1) := by decide!
  have hci0 : pixel_ci (canonical 4 4 50) 0 = dyadic (-3) (-1) := by decide!
  have hcr2 : pixel_cr (canonical 4 4 50) 2 = dyadic (-1) (-1) := by decide!
  have hci2 : pixel_ci (canonical 4 4 50) 2 = fin 0 := by decide!
  have h00 : pixel (canonical 4 4 50) 0 0 = 1 := by
    unfold pixel
    rw [escapeCount_eq]
    decide!
  have h22 : pixel (canonical 4 4 50) 2 2 = 49 := by
    unfold pixel
    rw [hcr2, hci2, escapeCount_eq, escSteps_minus_half]
    decide
  have hb : bytesPerPixel (canonical 4 4 50) = 1 := by decide
  have t0 : toRat (pixel_cr (canonical 4 4 50) 0) = -5 / 2 := by
    rw [hx0]; simp only [toRat]; norm_num
  have t1 : toRat (pixel_cr (canonical 4 4 50) 1) = -3 / 2 := by
    rw [hx1]; simp only [toRat]; norm_num
  have t2 : toRat (pixel_cr (canonical 4 4 50) 2) = -1 / 2 := by
    rw [hx2]; simp only [toRat]; norm_num
  have t3 : toRat (pixel_cr (canonical 4 4 50) 3) = 1 / 2 := by
    rw [hx3]; simp only [toRat]; norm_num
  have u0 : toRat (pixel_ci (canonical 4 4 50) 0) = -3 / 2 := by
    rw [hy0]; simp only [toRat]; norm_num
  have u2 : toRat (pixel_ci (canonical 4 4 50) 2) = 0 := by
    rw [hci2]; simp only [toRat]; norm_num
  refine ⟨hcr0, t0, hci0, u0, h00, by rw [h00]; decide, hcr2, t2, hci2, u2, ?_, h22,
    by rw [h22]; rfl, fun im => ⟨?_, ?_⟩⟩
  · intro x y hx0' hx4 hy0' hy4
    have hsq : 0 ≤ toRat (pixel_ci (canonical 4 4 50) y) ^ 2 := sq_nonneg _
    have hfy : ∃ b : Int, pixel_ci (canonical 4 4 50) y = fin b := by
      interval_cases y
      · exact ⟨_, hy0⟩
      · exact ⟨_, hy1⟩
      · exact ⟨_, hci2⟩
      · exact ⟨_, hy3⟩
    obtain ⟨b, hb'⟩ := hfy
    rw [t2, u2]
    interval_cases x
    · exact ⟨⟨_, b, hx0, hb'⟩, by rw [t0]; norm_num; linarith⟩
    · exact ⟨⟨_, b, hx1, hb'⟩, by rw [t1]; norm_num; linarith⟩
    · exact ⟨⟨_, b, hx2, hb'⟩, by rw [t2]; norm_num; linarith⟩
    · exact ⟨⟨_, b, hx3, hb'⟩, by rw [t3]; norm_num; linarith⟩
  · have h := mandel_basic_bytes_eq im (canonical 4 4 50) 0 0 0 (by decide) (by decide)
      (by decide) (by decide) (by decide) (by decide) (by decide)
    rw [h00, hb] at h
    exact h
  · have h := mandel_basic_bytes_eq im (canonical 4 4 50) 2 2 0 (by decide) (by decide)
      (by decide) (by decide) (by decide) (by decide) (by decide)
    rw [h22, hb] at h
    exact h

end Mandel
